import Mathlib

/-!
Verification of the cheatsheet-maker backend (src/backend/main.py).

Python strings are modelled as lists of characters (`Str`), so that indexing
and slicing match Python's code-point semantics.  Character classes
(`str.strip`, `str.lower`, the regex class `\w`) are modelled at ASCII
fidelity, which covers every string the specification and its examples use.
Wall-clock time (`datetime.now()`) is abstracted as an explicit natural-number
parameter `now`; it only feeds the generated `id` / timestamp strings.
-/

set_option maxRecDepth 8000

namespace CS

/-- Python `str` as a list of code points. -/
abbrev Str := List Char

def isWS (c : Char) : Bool := c.isWhitespace

/-- Python `str.strip()` (ASCII whitespace). -/
def trim (s : Str) : Str := ((s.dropWhile isWS).reverse.dropWhile isWS).reverse

/-- Python `s.split(chr(10))`. -/
def splitLines : Str → List Str
  | [] => [[]]
  | c :: rest =>
    if c = '\n' then [] :: splitLines rest
    else
      match splitLines rest with
      | [] => [[c]]
      | l :: ls => (c :: l) :: ls

/-- Python `(chr(10)).join(ls)`. -/
def joinLines : List Str → Str
  | [] => []
  | [l] => l
  | l :: ls => l ++ '\n' :: joinLines ls

/-- Python `str.lower()` (ASCII). -/
def lower (s : Str) : Str := s.map Char.toLower

/-- `isPfx p s` : `p` is a leading piece of `s`. -/
def isPfx : Str → Str → Bool
  | [], _ => true
  | _ :: _, [] => false
  | p :: ps, c :: cs => if p = c then isPfx ps cs else false

/-- Python `s.startswith(p)`. -/
def startsW (s p : Str) : Bool := isPfx p s

/-- The regex class `\w` (ASCII). -/
def isWordChar (c : Char) : Bool := c.isAlphanum || c = '_'

/-- Python `str(n)` for a natural number. -/
def natStr (n : Nat) : Str := (toString n).toList

-- Literal fragments used by the source.
def sNL : Str := ['\n']
def sH1 : Str := ("# ").toList
def sH2 : Str := ("## ").toList
def sH3 : Str := ("### ").toList
def sFence : Str := ("```").toList
def sText : Str := ("text").toList
def sImported : Str := ("Imported Content").toList
def sDots : Str := ("...").toList
def sKindCheatsheet : Str := ("cheatsheet").toList
def sKindSection : Str := ("section").toList
def sKindBlock : Str := ("block").toList

/-! ## Data model (src/backend/main.py, `Data Models`) -/

inductive BlockType
  | text
  | code
  | table
  | calculation
  | list
  | checkbox
  | reference
deriving DecidableEq

structure ReferenceCardRow where
  description : Str
  code : Str
deriving DecidableEq

structure Block where
  id : Str
  type : BlockType
  title : Option Str := none
  content : Str
  x : Int
  y : Int
  w : Int
  h : Int
  language : Option Str := none
  referenceData : Option (List ReferenceCardRow) := none
deriving DecidableEq

inductive TitleSize
  | sm
  | md
  | lg
  | xl
deriving DecidableEq

structure Section where
  id : Str
  title : Str
  titleColor : Option Str := none
  titleSize : Option TitleSize := none
  blocks : List Block := []
deriving DecidableEq

structure Cheatsheet where
  id : Str
  name : Str
  sections : List Section := []
  created : Str
  updated : Str
deriving DecidableEq

/-- `datetime.now().isoformat()`, abstracted through the `now` parameter. -/
def isoNow (now : Nat) : Str := ("iso_").toList ++ natStr now

def csIdOf (now : Nat) : Str := ("cs_").toList ++ natStr now

def blockIdOf (csId : Str) (c : Nat) : Str :=
  ("block_").toList ++ csId ++ ("_").toList ++ natStr c

def secIdOf (now : Nat) (k : Nat) : Str :=
  ("sec_").toList ++ natStr now ++ ("_").toList ++ natStr k

/-! ## Markdown importer (`parse_markdown_to_cheatsheet`) -/

/-- The in-progress text block: the plain dict the Python code accumulates
(`id`, optional `title`, `content`, `type` fixed to text, `x = 0`, `w = 6`,
`h = 2`, so only the varying fields are kept). -/
structure PBlock where
  id : Str
  title : Option Str
  content : Str
  y : Int
deriving DecidableEq

/-- `Block(**d)` for the in-progress dict (the mid-parse appends put the same
field values into the section, so both paths are this conversion). -/
def PBlock.toBlock (p : PBlock) : Block :=
  { id := p.id, type := .text, title := p.title, content := p.content,
    x := 0, y := p.y, w := 6, h := 2 }

/-- The mutable parse state of the importer loop. -/
structure PState where
  sections : List Section
  currentSection : Option Section
  currentBlock : Option PBlock
  counter : Nat
deriving DecidableEq

def initPState : PState :=
  { sections := [], currentSection := none, currentBlock := none, counter := 0 }

/-- Language of a fence line: `re.match(r'<fence>(\w+)?', line)`, group 1,
defaulting to `"text"` (the group is greedy, so it is the maximal run of
word characters right after the marker). -/
def fenceTag (line : Str) : Str := (line.drop 3).takeWhile isWordChar

def fenceLang (line : Str) : Str :=
  if fenceTag line = [] then sText else fenceTag line

/-! ### The four per-line transitions of the importer loop -/

/-- Branch `line.startswith(H2)`: flush the in-progress block (only when a
current section also exists), flush the current section, open a new one. -/
def h2Step (now : Nat) (line : Str) (st : PState) : PState :=
  let st1 :=
    match st.currentSection, st.currentBlock with
    | some sec, some pb =>
        { st with currentSection := some { sec with blocks := sec.blocks ++ [pb.toBlock] },
                  currentBlock := none }
    | _, _ => st
  let st2 :=
    match st1.currentSection with
    | some sec => { st1 with sections := st1.sections ++ [sec] }
    | none => st1
  { st2 with
    currentSection := some { id := secIdOf now st2.sections.length,
                             title := trim (line.drop 3), blocks := [] } }

/-- Branch `line.startswith(H3)`: flush the in-progress block (only when a
current section also exists), start a titled in-progress text block. -/
def h3Step (csId : Str) (line : Str) (st : PState) : PState :=
  let st1 :=
    match st.currentBlock, st.currentSection with
    | some pb, some sec =>
        { st with currentSection := some { sec with blocks := sec.blocks ++ [pb.toBlock] } }
    | _, _ => st
  { st1 with
    currentBlock := some { id := blockIdOf csId (st1.counter + 1),
                           title := some (trim (line.drop 4)), content := [],
                           y := ((st1.counter + 1 : Nat) : Int) - 1 },
    counter := st1.counter + 1 }

/-- Branch `line.startswith(fence)`: flush the in-progress block, read the
language tag, and append the code block built from the consumed body lines
(dropped when no current section exists). -/
def fenceStep (csId : Str) (line : Str) (codeLines : List Str) (st : PState) : PState :=
  let st1 :=
    match st.currentBlock, st.currentSection with
    | some pb, some sec =>
        { st with currentSection := some { sec with blocks := sec.blocks ++ [pb.toBlock] } }
    | _, _ => st
  let c := st1.counter + 1
  let codeBlock : Block :=
    { id := blockIdOf csId c, type := .code, content := joinLines codeLines,
      language := some (fenceLang line), x := 0, y := ((c : Nat) : Int) - 1, w := 6, h := 3 }
  match st1.currentSection with
  | some sec =>
      { st1 with currentSection := some { sec with blocks := sec.blocks ++ [codeBlock] },
                 currentBlock := none, counter := c }
  | none => { st1 with currentBlock := none, counter := c }

/-- Branch `line.strip()` truthy: synthesize the default section when none
exists, then start or extend the in-progress text block. -/
def textStep (now : Nat) (csId : Str) (line : Str) (st : PState) : PState :=
  let st1 :=
    match st.currentSection with
    | none =>
        { st with currentSection := some { id := secIdOf now 0, title := sImported, blocks := [] } }
    | some _ => st
  match st1.currentBlock with
  | none =>
      { st1 with
        currentBlock := some { id := blockIdOf csId (st1.counter + 1), title := none,
                               content := line, y := ((st1.counter + 1 : Nat) : Int) - 1 },
        counter := st1.counter + 1 }
  | some pb =>
      { st1 with currentBlock := some { pb with content := pb.content ++ '\n' :: line } }

/-- The importer's line loop (`while i < len(lines)` in the source), one
branch per source branch, first match wins.  The extra `Nat` is the count of
loop iterations still allowed (`len(lines) - i` bounds it); it makes the
recursion structural and is fixed to the line count by `parseLines`. -/
def parseGo (now : Nat) (csId : Str) : Nat → List Str → PState → PState
  | _, [], st => st
  | 0, _ :: _, st => st
  | n + 1, line :: rest, st =>
    if startsW line sH2 then
      parseGo now csId n rest (h2Step now line st)
    else if startsW line sH3 then
      parseGo now csId n rest (h3Step csId line st)
    else if startsW line sFence then
      parseGo now csId n ((rest.dropWhile (fun l => !startsW l sFence)).drop 1)
        (fenceStep csId line (rest.takeWhile (fun l => !startsW l sFence)) st)
    else if trim line ≠ [] then
      parseGo now csId n rest (textStep now csId line st)
    else
      parseGo now csId n rest st

def parseLines (now : Nat) (csId : Str) (ls : List Str) (st : PState) : PState :=
  parseGo now csId ls.length ls st

/-- End-of-input handling: flush the pending block and section, default
section if none, assemble the `Cheatsheet`. -/
def finishParse (now : Nat) (name : Str) (csId : Str) (st : PState) : Cheatsheet :=
  let st1 :=
    match st.currentBlock, st.currentSection with
    | some pb, some sec =>
        { st with currentSection := some { sec with blocks := sec.blocks ++ [pb.toBlock] } }
    | _, _ => st
  let secs :=
    match st1.currentSection with
    | some sec => st1.sections ++ [sec]
    | none => st1.sections
  let secs :=
    if secs = [] then [{ id := secIdOf now 0, title := sImported, blocks := [] }] else secs
  { id := csId, name := name, sections := secs, created := isoNow now, updated := isoNow now }

def parse_markdown_to_cheatsheet (md name : Str) (now : Nat) : Cheatsheet :=
  finishParse now name (csIdOf now) (parseLines now (csIdOf now) (splitLines md) initPState)

/-! ## Markdown exporter (`export_cheatsheet_markdown`) -/

/-- `block.language or "text"` (Python falsiness: absent or empty). -/
def exportLang (b : Block) : Str :=
  match b.language with
  | some l => if l = [] then sText else l
  | none => sText

/-- The `md_lines` entries appended for one block. -/
def blockItems (b : Block) : List Str :=
  (match b.title with
   | some t => if t = [] then [] else [sNL ++ sH3 ++ t ++ sNL]
   | none => []) ++
  (match b.type with
   | .text => [sNL ++ b.content ++ sNL]
   | .code => [sNL ++ sFence ++ exportLang b ++ sNL ++ b.content ++ sNL ++ sFence ++ sNL]
   | .table => [sNL ++ b.content ++ sNL]
   | .list => [sNL ++ b.content ++ sNL]
   | .checkbox => [sNL ++ b.content ++ sNL]
   | .calculation => [sNL ++ sFence ++ sNL ++ b.content ++ sNL ++ sFence ++ sNL]
   | .reference =>
      match b.referenceData with
      | some rows =>
          if rows = [] then []
          else
            [sNL ++ ("| Description | Code |").toList ++ sNL,
             ("|-------------|------|").toList ++ sNL] ++
            rows.map (fun r =>
              ("| ").toList ++ r.description ++ (" | `").toList ++ r.code ++ ("` |").toList ++ sNL)
      | none => [])

def sectionItems (sec : Section) : List Str :=
  [sNL ++ sH2 ++ sec.title ++ sNL] ++ sec.blocks.flatMap blockItems

def exportItems (cs : Cheatsheet) : List Str :=
  [sH1 ++ cs.name ++ sNL] ++ cs.sections.flatMap sectionItems

/-- `markdown_content = (chr(10)).join(md_lines)`. -/
def export_cheatsheet_markdown (cs : Cheatsheet) : Str :=
  joinLines (exportItems cs)

/-! ## Search (`search_cheatsheets`) -/

structure SearchResult where
  cheatsheet_id : Str
  cheatsheet_name : Str
  section_title : Option Str := none
  block_type : Option BlockType := none
  block_title : Option Str := none
  type : Str
  matchText : Str
deriving DecidableEq

/-- Python `haystack.find(needle)` helper: the first index at which `needle`
is a leading piece of the remaining haystack. -/
def findFrom (need : Str) : Str → Nat → Option Nat
  | [], i => if isPfx need [] then some i else none
  | c :: t, i => if isPfx need (c :: t) then some i else findFrom need t (i + 1)

/-- Python `haystack.find(needle)` (`-1` when absent). -/
def pyFind (hay need : Str) : Int :=
  match findFrom need hay 0 with
  | some i => (i : Int)
  | none => -1

/-- Python `needle in haystack`. -/
def containsSub (hay need : Str) : Bool := (findFrom need hay 0).isSome

/-- Python slice `s[a:b]` for `0 ≤ a`. -/
def pySlice (s : Str) (a b : Int) : Str := (s.drop a.toNat).take (b - a).toNat

/-- The context snippet and block match record built inside the block branch
of the search loop. -/
def blockMatchResult (cs : Cheatsheet) (sec : Section) (query : Str) (b : Block) : SearchResult :=
  let contentLower := lower b.content
  let matchIndex := pyFind contentLower query
  let start : Int := max 0 (matchIndex - 50)
  let stop : Int := min ((b.content.length : Int)) (matchIndex + (query.length : Int) + 50)
  let snippet := pySlice b.content start stop
  let snippet := if start > 0 then sDots ++ snippet else snippet
  let snippet := if stop < (b.content.length : Int) then snippet ++ sDots else snippet
  { cheatsheet_id := cs.id, cheatsheet_name := cs.name, section_title := some sec.title,
    block_type := some b.type, block_title := b.title, type := sKindBlock, matchText := snippet }

def cheatsheetMatchResult (cs : Cheatsheet) : SearchResult :=
  { cheatsheet_id := cs.id, cheatsheet_name := cs.name, type := sKindCheatsheet,
    matchText := cs.name }

def sectionMatchResult (cs : Cheatsheet) (sec : Section) : SearchResult :=
  { cheatsheet_id := cs.id, cheatsheet_name := cs.name, section_title := some sec.title,
    type := sKindSection, matchText := sec.title }

/-- `query in block.content.lower() or (block.title and query in block.title.lower())`. -/
def blockHit (query : Str) (b : Block) : Bool :=
  containsSub (lower b.content) query ||
    (match b.title with
     | some t => if t = [] then false else containsSub (lower t) query
     | none => false)

def search_cheatsheets (cheatsheets : List Cheatsheet) (q : Str) : List SearchResult :=
  if q = [] || q.length < 2 then []
  else
    let query := lower q
    cheatsheets.foldl (fun results cs =>
      let results :=
        if containsSub (lower cs.name) query then results ++ [cheatsheetMatchResult cs]
        else results
      cs.sections.foldl (fun results sec =>
        let results :=
          if containsSub (lower sec.title) query then results ++ [sectionMatchResult cs sec]
          else results
        sec.blocks.foldl (fun results b =>
          if blockHit query b then results ++ [blockMatchResult cs sec query b]
          else results) results) results) []

/-! ## Structural view of a document (section titles and block
title/type/content/language, in order) -/

abbrev BlockStruct := Option Str × BlockType × Str × Option Str

instance : DecidableEq (List BlockStruct) := List.hasDecEq

instance : DecidableEq (List (Str × List BlockStruct)) := List.hasDecEq

def Block.struct (b : Block) : BlockStruct :=
  (b.title, b.type, b.content, b.language)

def Section.struct (s : Section) : Str × List BlockStruct :=
  (s.title, s.blocks.map Block.struct)

def Cheatsheet.struct (c : Cheatsheet) : List (Str × List BlockStruct) :=
  c.sections.map Section.struct

/-- Drop the leading `"# {name}"` header line emitted by the exporter. -/
def stripHeader (name : Str) (s : Str) : Str := s.drop (sH1 ++ name ++ sNL).length

/-! ## The search result list, restructured per document -/

/-- The matches the section loop contributes for one section. -/
def secResults (cs : Cheatsheet) (query : Str) (sec : Section) : List SearchResult :=
  (if containsSub (lower sec.title) query then [sectionMatchResult cs sec] else []) ++
    (sec.blocks.filter (blockHit query)).map (blockMatchResult cs sec query)

/-- The matches the outer loop contributes for one cheatsheet: name match
first, then section matches each followed by their block matches. -/
def docResults (query : Str) (cs : Cheatsheet) : List SearchResult :=
  (if containsSub (lower cs.name) query then [cheatsheetMatchResult cs] else []) ++
    cs.sections.flatMap (secResults cs query)

/-! ## Test fixtures -/

def goBasicsSheet : Cheatsheet :=
  { id := ("gb").toList, name := ("Go Basics").toList, sections := [],
    created := [], updated := [] }

/-- A document with exactly one text block, used to exercise the block
branch of the search loop on arbitrary content and title. -/
def theBlock (content : Str) (title : Option Str) : Block :=
  { id := [], type := .text, title := title, content := content, x := 0, y := 0, w := 6, h := 2 }

def theSec (content : Str) (title : Option Str) : Section :=
  { id := [], title := [], blocks := [theBlock content title] }

def oneBlockSheet (content : Str) (title : Option Str) : Cheatsheet :=
  { id := [], name := [], created := [], updated := [],
    sections := [theSec content title] }

/-! ## The pure-text markdown fragment of the specification -/

def headerLine (l : Str) : Prop :=
  startsW l sH1 = true ∨ startsW l sH2 = true ∨ startsW l sH3 = true

/-- A plain paragraph line: non-blank, no header marker, no fence marker,
and no table pipe. -/
def paraLine (l : Str) : Prop :=
  trim l ≠ [] ∧ ¬ headerLine l ∧ startsW l sFence = false ∧ startsW l (("|").toList) = false

instance (l : Str) : Decidable (headerLine l) := by unfold headerLine; infer_instance

instance (l : Str) : Decidable (paraLine l) := by unfold paraLine; infer_instance

/-- Line lists made only of blank lines, `#`- headers, plain paragraphs and
fenced code blocks. -/
inductive FragLines : List Str → Prop
  | nil : FragLines []
  | blank (l : Str) (rest : List Str) : trim l = [] → FragLines rest → FragLines (l :: rest)
  | header (l : Str) (rest : List Str) : headerLine l → FragLines rest → FragLines (l :: rest)
  | para (l : Str) (rest : List Str) : paraLine l → FragLines rest → FragLines (l :: rest)
  | fenced (f : Str) (body : List Str) (rest : List Str) :
      startsW f sFence = true → (∀ b ∈ body, startsW b sFence = false) →
      FragLines rest → FragLines (f :: (body ++ sFence :: rest))

/-- Markdown containing only #/##/### headers, plain paragraphs and fenced
code blocks (no tables). -/
def Fragment (md : Str) : Prop := FragLines (splitLines md)

/-- The markdown used to refute the unconditional round-trip claim: the
`###` header with a blank title produces a block whose empty title the
exporter drops. -/
def cxMd : Str := ("## S\nhello\n### \nworld").toList

def cxName : Str := ("Notes").toList

/-- A pure-text/code markdown fragment whose `###` titles are non-blank,
used to witness the amended round-trip theorem. -/
def rtMd : Str := ("## S\nhello\n```py\ncode\n```").toList

def rtName : Str := ("N").toList

/-! ## The shape of imported documents (used for the round-trip claim) -/

/-- A line that the importer stored inside a text block: non-blank and free
of all three structural markers. -/
def goodContentLine (l : Str) : Prop :=
  trim l ≠ [] ∧ startsW l sH2 = false ∧ startsW l sH3 = false ∧ startsW l sFence = false

/-- A title as produced by the importer: already stripped, single-line. -/
def goodTitle (t : Str) : Prop := trim t = t ∧ '\n' ∉ t

/-- The three block shapes the importer can produce: an untitled text
block, a titled text block (content empty or newline-prefixed), or a code
block with a word-character language. -/
def GoodBlock (b : Block) : Prop :=
  (b.type = .text ∧ b.title = none ∧ b.language = none ∧
    (∀ l ∈ splitLines b.content, goodContentLine l)) ∨
  (b.type = .text ∧ (∃ T, b.title = some T ∧ T ≠ [] ∧ goodTitle T) ∧ b.language = none ∧
    (∃ rs, splitLines b.content = [] :: rs ∧ ∀ l ∈ rs, goodContentLine l)) ∨
  (b.type = .code ∧ b.title = none ∧
    (∃ L, b.language = some L ∧ L ≠ [] ∧ (∀ ch ∈ L, isWordChar ch = true)) ∧
    (∀ l ∈ splitLines b.content, startsW l sFence = false))

/-- An untitled text block never directly follows another text block (it
can only start a section or follow a code block). -/
def blocksChainOK (bs : List Block) : Prop :=
  List.Chain' (fun a b => (b.type = .text ∧ b.title = none) → a.type = .code) bs

def GoodSec (s : Section) : Prop :=
  goodTitle s.title ∧ (∀ b ∈ s.blocks, GoodBlock b) ∧ blocksChainOK s.blocks

def GoodDoc (d : Cheatsheet) : Prop := d.sections ≠ [] ∧ ∀ s ∈ d.sections, GoodSec s

/-- Invariant of the in-progress block during import. -/
def GoodPend (pb : PBlock) : Prop :=
  (pb.title = none ∧ ∀ l ∈ splitLines pb.content, goodContentLine l) ∨
  ((∃ T, pb.title = some T ∧ T ≠ [] ∧ goodTitle T) ∧
    ∃ rs, splitLines pb.content = [] :: rs ∧ ∀ l ∈ rs, goodContentLine l)

def lastIsCode (bs : List Block) : Prop := ∀ b, bs.getLast? = some b → b.type = .code

/-- Invariant of the whole importer state. -/
def InvG (st : PState) : Prop :=
  (∀ s ∈ st.sections, GoodSec s) ∧
  (∀ s, st.currentSection = some s →
    goodTitle s.title ∧ (∀ b ∈ s.blocks, GoodBlock b) ∧ blocksChainOK s.blocks) ∧
  (∀ pb, st.currentBlock = some pb → GoodPend pb) ∧
  (∀ pb, st.currentBlock = some pb → pb.title = none →
    ∃ s, st.currentSection = some s ∧ lastIsCode s.blocks) ∧
  (st.currentBlock = none → ∀ s, st.currentSection = some s → lastIsCode s.blocks)

/-- The side condition on input lines for the round-trip: `###` headers
carry a non-blank title (the counterexample shows the claim fails without
it), and lines are what `splitLines` yields (no embedded newline). -/
def lineOK (l : Str) : Prop :=
  '\n' ∉ l ∧ (startsW l sH3 = true → trim (l.drop 4) ≠ [])

/-! ## Replay of an exported document through the importer -/

/-- The in-progress text block the re-import rebuilds for a text block. -/
def rbText (csId : Str) (c : Nat) (title : Option Str) (content : Str) : PBlock :=
  { id := blockIdOf csId c, title := title, content := content, y := ((c : Nat) : Int) - 1 }

/-- The code block the re-import rebuilds. -/
def rbCode (csId : Str) (c : Nat) (b : Block) : Block :=
  { id := blockIdOf csId c, type := .code, content := b.content,
    language := some (exportLang b), x := 0, y := ((c : Nat) : Int) - 1, w := 6, h := 3 }

/-- State change produced by re-importing the lines of a block list inside
one section: emitted blocks, trailing in-progress block, final counter. -/
def replayBlocks (csId : Str) : List Block → Option PBlock → Nat →
    List Block × Option PBlock × Nat
  | [], p, c => ([], p, c)
  | b :: bs, p, c =>
    if b.type = .code then
      let out := replayBlocks csId bs none (c + 1)
      ((p.toList.map PBlock.toBlock) ++ [rbCode csId (c + 1) b] ++ out.1, out.2.1, out.2.2)
    else
      let out := replayBlocks csId bs (some (rbText csId (c + 1) b.title b.content)) (c + 1)
      ((p.toList.map PBlock.toBlock) ++ out.1, out.2.1, out.2.2)

/-- The lines the exporter emits for one block (text/code shapes). -/
def blockLines (b : Block) : List Str :=
  (match b.title with
   | some t => if t = [] then [] else [[], sH3 ++ t, []]
   | none => []) ++
  (if b.type = .code then [[], sFence ++ exportLang b] ++ splitLines b.content ++ [sFence, []]
   else [[]] ++ splitLines b.content ++ [[]])

/-- The lines the exporter emits for one section. -/
def secLines (s : Section) : List Str :=
  [[], sH2 ++ s.title, []] ++ s.blocks.flatMap blockLines

/-- State after re-importing one exported section. -/
def afterSec (now : Nat) (csId : Str) (s : Section) (st : PState) : PState :=
  let sth := h2Step now (sH2 ++ s.title) st
  let rb := replayBlocks csId s.blocks none sth.counter
  { sth with
    currentSection := sth.currentSection.map (fun ns => { ns with blocks := ns.blocks ++ rb.1 }),
    currentBlock := rb.2.1,
    counter := rb.2.2 }

def replayDoc (now : Nat) (csId : Str) : List Section → PState → PState
  | [], st => st
  | s :: ss, st => replayDoc now csId ss (afterSec now csId s st)

/-- The section list after the end-of-input flush (before the empty-input
default). -/
def flushSecs (st : PState) : List Section :=
  match st.currentBlock, st.currentSection with
  | some pb, some sec => st.sections ++ [{ sec with blocks := sec.blocks ++ [pb.toBlock] }]
  | _, _ =>
    match st.currentSection with
    | some sec => st.sections ++ [sec]
    | none => st.sections

/-! ## Named state components (shorthands for the step results) -/

def newSec (now : Nat) (k : Nat) (line : Str) : Section :=
  { id := secIdOf now k, title := trim (line.drop 3), blocks := [] }

def importedSec (now : Nat) : Section :=
  { id := secIdOf now 0, title := sImported, blocks := [] }

def addBlock (s : Section) (b : Block) : Section := { s with blocks := s.blocks ++ [b] }

def newTitled (csId : Str) (c : Nat) (line : Str) : PBlock :=
  { id := blockIdOf csId c, title := some (trim (line.drop 4)), content := [],
    y := ((c : Nat) : Int) - 1 }

def newUntitled (csId : Str) (c : Nat) (line : Str) : PBlock :=
  { id := blockIdOf csId c, title := none, content := line, y := ((c : Nat) : Int) - 1 }

def codeBlockOf (csId : Str) (c : Nat) (line : Str) (codeLines : List Str) : Block :=
  { id := blockIdOf csId c, type := .code, content := joinLines codeLines,
    language := some (fenceLang line), x := 0, y := ((c : Nat) : Int) - 1, w := 6, h := 3 }

def appendLine (pb : PBlock) (line : Str) : PBlock :=
  { pb with content := pb.content ++ '\n' :: line }

/-- Repeated application of the content-extension branch. -/
def appContent (pb : PBlock) : List Str → PBlock
  | [] => pb
  | l :: ls => appContent (appendLine pb l) ls

/-! ## Observables for the block-counter invariant -/

/-- All blocks the state holds, in document order: flushed sections, the
current section, then the in-progress block. -/
def allBlocks (st : PState) : List Block :=
  (st.sections ++ st.currentSection.toList).flatMap Section.blocks ++
    st.currentBlock.toList.map PBlock.toBlock

/-- The layout/id facts claimed for every imported block. -/
def blockFieldsOK (csId : Str) (b : Block) : Prop :=
  b.x = 0 ∧ b.w = 6 ∧ (b.type = .text → b.h = 2) ∧ (b.type = .code → b.h = 3) ∧
    0 ≤ b.y ∧ b.id = blockIdOf csId (b.y + 1).toNat

/-- Counter invariant over a block list: every block has the claimed
fields, the y slots strictly increase, and all stay below the counter. -/
def InvParts (csId : Str) (bs : List Block) (c : Nat) : Prop :=
  (∀ b ∈ bs, blockFieldsOK csId b) ∧
    List.Chain' (· < ·) (bs.map Block.y) ∧
    (∀ b ∈ bs, b.y < (c : Int))

def InvC4 (csId : Str) (st : PState) : Prop := InvParts csId (allBlocks st) st.counter

/-! # Lemmas and claim theorems -/

theorem foldl_append_step {α β : Type} (f : β → List α) (step : List α → β → List α)
    (h : ∀ acc b, step acc b = acc ++ f b) :
    ∀ (l : List β) (acc : List α), l.foldl step acc = acc ++ l.flatMap f
  | [], acc => by simp
  | b :: t, acc => by
    rw [List.foldl_cons, h, foldl_append_step f step h t, List.flatMap_cons, List.append_assoc]

theorem foldl_filter_map_step {α β : Type} (p : β → Bool) (g : β → α) :
    ∀ (l : List β) (acc : List α),
      l.foldl (fun r b => if p b then r ++ [g b] else r) acc = acc ++ (l.filter p).map g
  | [], acc => by simp
  | b :: t, acc => by
    rw [List.foldl_cons, List.filter_cons]
    by_cases hb : p b
    · simp only [hb, if_pos, if_true]
      rw [foldl_filter_map_step p g t, List.map_cons, List.append_assoc]
      rfl
    · simp only [hb, if_false, if_neg]
      rw [foldl_filter_map_step p g t]
      simp [hb]

theorem block_fold (cs : Cheatsheet) (sec : Section) (query : Str) (bs : List Block)
    (acc : List SearchResult) :
    bs.foldl (fun r b => if blockHit query b then r ++ [blockMatchResult cs sec query b] else r)
        acc =
      acc ++ (bs.filter (blockHit query)).map (blockMatchResult cs sec query) :=
  foldl_filter_map_step _ _ bs acc

theorem sec_fold (cs : Cheatsheet) (query : Str) (secs : List Section) (acc : List SearchResult) :
    secs.foldl (fun results sec =>
        (sec.blocks.foldl
          (fun r b => if blockHit query b then r ++ [blockMatchResult cs sec query b] else r)
          (if containsSub (lower sec.title) query then results ++ [sectionMatchResult cs sec]
           else results))) acc =
      acc ++ secs.flatMap (secResults cs query) := by
  apply foldl_append_step
  intro acc sec
  rw [block_fold]
  unfold secResults
  by_cases ht : containsSub (lower sec.title) query
  · simp [ht]
  · simp [ht]

theorem search_eq_flatMap (docs : List Cheatsheet) (q : Str) (h : 2 ≤ q.length) :
    search_cheatsheets docs q = docs.flatMap (docResults (lower q)) := by
  have hne : q ≠ [] := by intro he; subst he; simp at h
  have hq : ¬ q.length < 2 := by omega
  unfold search_cheatsheets
  rw [if_neg (by simp [hne, hq])]
  apply foldl_append_step
  intro acc cs
  dsimp only
  rw [sec_fold]
  unfold docResults
  split
  · rw [List.append_assoc]
  · rw [List.nil_append]

/-! ### Basic facts about the string utilities -/

theorem isPfx_append (p t : Str) : isPfx p (p ++ t) = true := by
  induction p with
  | nil => rfl
  | cons c cs ih => simp [isPfx, ih]

theorem startsW_append_self (p t : Str) : startsW (p ++ t) p = true := isPfx_append p t

theorem startsW_refl (p : Str) : startsW p p = true := by
  have := isPfx_append p []
  rwa [List.append_nil] at this

theorem startsW_decomp (s p : Str) (h : startsW s p = true) : ∃ t, s = p ++ t := by
  induction p generalizing s with
  | nil => exact ⟨s, rfl⟩
  | cons c cs ih =>
    cases s with
    | nil => exact absurd h (by simp [startsW, isPfx])
    | cons a t =>
      have hh : (if c = a then isPfx cs t else false) = true := h
      by_cases hca : c = a
      · rw [if_pos hca] at hh
        obtain ⟨u, hu⟩ := ih t hh
        exact ⟨u, by rw [hca, List.cons_append, hu]⟩
      · rw [if_neg hca] at hh
        exact absurd hh (by simp)

theorem sH2_chars : sH2 = '#' :: '#' :: ' ' :: [] := by decide

theorem sH3_chars : sH3 = '#' :: '#' :: '#' :: ' ' :: [] := by decide

theorem sFence_chars : sFence = '\x60' :: '\x60' :: '\x60' :: [] := by decide

theorem startsW_h3_not_h2 (t : Str) : startsW (sH3 ++ t) sH2 = false := by
  show isPfx sH2 (sH3 ++ t) = false
  rw [sH2_chars, sH3_chars]
  show isPfx _ ('#' :: '#' :: '#' :: ' ' :: t) = false
  simp only [isPfx, if_pos]
  rw [if_neg (by decide : ¬ (' ' = '#'))]

theorem startsW_fence_not_h2 (t : Str) : startsW (sFence ++ t) sH2 = false := by
  show isPfx sH2 (sFence ++ t) = false
  rw [sH2_chars, sFence_chars]
  show isPfx _ ('\x60' :: '\x60' :: '\x60' :: t) = false
  rw [show isPfx ('#' :: '#' :: ' ' :: []) ('\x60' :: '\x60' :: '\x60' :: t) =
      (if '#' = '\x60' then isPfx ('#' :: ' ' :: []) ('\x60' :: '\x60' :: t) else false) from rfl,
    if_neg (by decide : ¬ ('#' = '\x60'))]

theorem startsW_fence_not_h3 (t : Str) : startsW (sFence ++ t) sH3 = false := by
  show isPfx sH3 (sFence ++ t) = false
  rw [sH3_chars, sFence_chars]
  show isPfx _ ('\x60' :: '\x60' :: '\x60' :: t) = false
  rw [show isPfx ('#' :: '#' :: '#' :: ' ' :: []) ('\x60' :: '\x60' :: '\x60' :: t) =
      (if '#' = '\x60' then isPfx ('#' :: '#' :: ' ' :: []) ('\x60' :: '\x60' :: t) else false)
      from rfl,
    if_neg (by decide : ¬ ('#' = '\x60'))]

/-- A blank line (in Python: falsy `strip`) is made of whitespace only. -/
theorem blank_all_ws (l : Str) (h : trim l = []) : ∀ c ∈ l, isWS c = true := by
  intro c hc
  unfold trim at h
  have h1 : (l.dropWhile isWS).reverse.dropWhile isWS = [] := by
    have := congrArg List.reverse h
    simpa using this
  have h2 : ∀ x ∈ (l.dropWhile isWS).reverse, isWS x = true := by
    intro x hx
    exact List.dropWhile_eq_nil_iff.mp h1 x hx
  have h3 : ∀ x ∈ l.dropWhile isWS, isWS x = true := by
    intro x hx
    exact h2 x (List.mem_reverse.mpr hx)
  have h4 : l = l.takeWhile isWS ++ l.dropWhile isWS :=
    (List.takeWhile_append_dropWhile (p := isWS) (l := l)).symm
  rw [h4] at hc
  rcases List.mem_append.mp hc with hc1 | hc2
  · exact List.mem_takeWhile_imp hc1
  · exact h3 c hc2

theorem blank_not_starts (l : Str) (h : trim l = []) (c : Char) (hc : isWS c = false)
    (t : Str) : startsW l (c :: t) = false := by
  cases l with
  | nil => rfl
  | cons a s =>
    have ha : isWS a = true := blank_all_ws _ h a (List.mem_cons_self a s)
    have hne : ¬ (c = a) := by
      intro he
      rw [he, ha] at hc
      simp at hc
    show isPfx (c :: t) (a :: s) = false
    rw [show isPfx (c :: t) (a :: s) = (if c = a then isPfx t s else false) from rfl, if_neg hne]

theorem blank_not_h2 (l : Str) (h : trim l = []) : startsW l sH2 = false := by
  rw [sH2_chars]
  exact blank_not_starts l h '#' (by decide) _

theorem blank_not_h3 (l : Str) (h : trim l = []) : startsW l sH3 = false := by
  rw [sH3_chars]
  exact blank_not_starts l h '#' (by decide) _

theorem blank_not_fence (l : Str) (h : trim l = []) : startsW l sFence = false := by
  rw [sFence_chars]
  exact blank_not_starts l h '\x60' (by decide) _

/-! ### `trim` -/

theorem trim_subset (l : Str) (c : Char) (h : c ∈ trim l) : c ∈ l := by
  unfold trim at h
  have h1 := List.mem_reverse.mp h
  have h2 := (List.dropWhile_sublist isWS).mem h1
  have h3 := List.mem_reverse.mp h2
  exact (List.dropWhile_sublist isWS).mem h3

theorem trim_no_nl (l : Str) (h : '\n' ∉ l) : '\n' ∉ trim l :=
  fun hm => h (trim_subset _ _ hm)

theorem drop_no_nl (l : Str) (n : Nat) (h : '\n' ∉ l) : '\n' ∉ l.drop n :=
  fun hm => h ((List.drop_sublist n l).mem hm)

theorem dropWhile_head?_not {α : Type} (p : α → Bool) :
    ∀ (l : List α) (a : α), (l.dropWhile p).head? = some a → p a = false := by
  intro l
  induction l with
  | nil => intro a h; simp [List.dropWhile] at h
  | cons x t ih =>
    intro a h
    rw [List.dropWhile_cons] at h
    by_cases hx : p x
    · rw [if_pos hx] at h
      exact ih a h
    · rw [if_neg hx] at h
      simp only [List.head?_cons, Option.some.injEq] at h
      subst h
      exact Bool.not_eq_true _ ▸ (by simpa using hx)

theorem dropWhile_eq_self {α : Type} (p : α → Bool) (l : List α)
    (h : ∀ a, l.head? = some a → p a = false) : l.dropWhile p = l := by
  cases l with
  | nil => rfl
  | cons x t =>
    rw [List.dropWhile_cons, if_neg]
    rw [h x rfl]
    simp

theorem trim_trim (l : Str) : trim (trim l) = trim l := by
  have hu : ∀ (u : Str) (a : Char), (u.dropWhile isWS).head? = some a → isWS a = false :=
    fun u => dropWhile_head?_not isWS u
  set u := l.dropWhile isWS with hu_def
  set w := u.reverse.dropWhile isWS with hw_def
  have htriml : trim l = w.reverse := rfl
  have claimA : (w.reverse).dropWhile isWS = w.reverse := by
    apply dropWhile_eq_self
    intro a ha
    rw [List.head?_reverse] at ha
    have hwne : w ≠ [] := by
      intro he
      rw [he] at ha
      simp at ha
    have hsplit : u.reverse = u.reverse.takeWhile isWS ++ w :=
      (List.takeWhile_append_dropWhile (p := isWS) (l := u.reverse)).symm
    have hlast : (u.reverse).getLast? = w.getLast? := by
      rw [hsplit]
      exact List.getLast?_append_of_ne_nil _ hwne
    have hhead : u.head? = some a := by
      rw [← List.getLast?_reverse, hlast, ha]
    exact hu l a hhead
  have claimB : w.dropWhile isWS = w := by
    apply dropWhile_eq_self
    intro a ha
    exact dropWhile_head?_not isWS u.reverse a ha
  show ((((trim l).dropWhile isWS).reverse.dropWhile isWS).reverse : Str) = trim l
  rw [htriml, claimA, List.reverse_reverse, claimB]

theorem goodTitle_trim (x : Str) (h : '\n' ∉ x) : goodTitle (trim x) :=
  ⟨trim_trim x, trim_no_nl x h⟩

/-! ### The step functions on explicit states -/

theorem h2Step_SS (now : Nat) (line : Str) (secs : List Section) (s : Section) (pb : PBlock)
    (c : Nat) :
    h2Step now line ⟨secs, some s, some pb, c⟩ =
      ⟨secs ++ [addBlock s pb.toBlock],
       some (newSec now (secs ++ [addBlock s pb.toBlock]).length line), none, c⟩ := rfl

theorem h2Step_SN (now : Nat) (line : Str) (secs : List Section) (s : Section) (c : Nat) :
    h2Step now line ⟨secs, some s, none, c⟩ =
      ⟨secs ++ [s], some (newSec now (secs ++ [s]).length line), none, c⟩ := rfl

theorem h2Step_N (now : Nat) (line : Str) (secs : List Section) (cb : Option PBlock) (c : Nat) :
    h2Step now line ⟨secs, none, cb, c⟩ =
      ⟨secs, some (newSec now secs.length line), cb, c⟩ := by
  cases cb <;> rfl

theorem h3Step_SS (csId : Str) (line : Str) (secs : List Section) (s : Section) (pb : PBlock)
    (c : Nat) :
    h3Step csId line ⟨secs, some s, some pb, c⟩ =
      ⟨secs, some (addBlock s pb.toBlock), some (newTitled csId (c + 1) line), c + 1⟩ := rfl

theorem h3Step_NS (csId : Str) (line : Str) (secs : List Section) (pb : PBlock) (c : Nat) :
    h3Step csId line ⟨secs, none, some pb, c⟩ =
      ⟨secs, none, some (newTitled csId (c + 1) line), c + 1⟩ := rfl

theorem h3Step_B (csId : Str) (line : Str) (secs : List Section) (cs : Option Section) (c : Nat) :
    h3Step csId line ⟨secs, cs, none, c⟩ =
      ⟨secs, cs, some (newTitled csId (c + 1) line), c + 1⟩ := by
  cases cs <;> rfl

theorem fenceStep_SS (csId : Str) (line : Str) (codeLines : List Str) (secs : List Section)
    (s : Section) (pb : PBlock) (c : Nat) :
    fenceStep csId line codeLines ⟨secs, some s, some pb, c⟩ =
      ⟨secs, some (addBlock (addBlock s pb.toBlock) (codeBlockOf csId (c + 1) line codeLines)),
       none, c + 1⟩ := rfl

theorem fenceStep_SN (csId : Str) (line : Str) (codeLines : List Str) (secs : List Section)
    (s : Section) (c : Nat) :
    fenceStep csId line codeLines ⟨secs, some s, none, c⟩ =
      ⟨secs, some (addBlock s (codeBlockOf csId (c + 1) line codeLines)), none, c + 1⟩ := rfl

theorem fenceStep_N (csId : Str) (line : Str) (codeLines : List Str) (secs : List Section)
    (cb : Option PBlock) (c : Nat) :
    fenceStep csId line codeLines ⟨secs, none, cb, c⟩ = ⟨secs, none, none, c + 1⟩ := by
  cases cb <;> rfl

theorem textStep_SN (now : Nat) (csId : Str) (line : Str) (secs : List Section) (s : Section)
    (c : Nat) :
    textStep now csId line ⟨secs, some s, none, c⟩ =
      ⟨secs, some s, some (newUntitled csId (c + 1) line), c + 1⟩ := rfl

theorem textStep_SS (now : Nat) (csId : Str) (line : Str) (secs : List Section) (s : Section)
    (pb : PBlock) (c : Nat) :
    textStep now csId line ⟨secs, some s, some pb, c⟩ =
      ⟨secs, some s, some (appendLine pb line), c⟩ := rfl

theorem textStep_NN (now : Nat) (csId : Str) (line : Str) (secs : List Section) (c : Nat) :
    textStep now csId line ⟨secs, none, none, c⟩ =
      ⟨secs, some (importedSec now), some (newUntitled csId (c + 1) line), c + 1⟩ := rfl

theorem textStep_NS (now : Nat) (csId : Str) (line : Str) (secs : List Section) (pb : PBlock)
    (c : Nat) :
    textStep now csId line ⟨secs, none, some pb, c⟩ =
      ⟨secs, some (importedSec now), some (appendLine pb line), c⟩ := rfl

/-! ### `splitLines` / `joinLines` -/

theorem splitLines_ne_nil (s : Str) : splitLines s ≠ [] := by
  cases s with
  | nil => simp [splitLines]
  | cons c rest =>
    unfold splitLines
    split
    · simp
    · split
      · simp
      · simp

theorem splitLines_decomp (s : Str) : ∃ h0 r, splitLines s = h0 :: r := by
  cases hsp : splitLines s with
  | nil => exact absurd hsp (splitLines_ne_nil s)
  | cons x y => exact ⟨x, y, rfl⟩

theorem splitLines_cons_nl (rest : Str) : splitLines ('\n' :: rest) = [] :: splitLines rest := by
  show (if '\n' = '\n' then [] :: splitLines rest else _) = _
  rw [if_pos rfl]

theorem splitLines_cons_of_ne (c : Char) (rest : Str) (hc : ¬ c = '\n') (h0 : Str)
    (r : List Str) (hs : splitLines rest = h0 :: r) :
    splitLines (c :: rest) = (c :: h0) :: r := by
  show (if c = '\n' then [] :: splitLines rest
        else match splitLines rest with
             | [] => [[c]]
             | l :: ls => (c :: l) :: ls) = _
  rw [if_neg hc, hs]

theorem splitLines_append (a b : Str) :
    splitLines (a ++ '\n' :: b) = splitLines a ++ splitLines b := by
  induction a with
  | nil =>
    show splitLines ('\n' :: b) = [[]] ++ splitLines b
    rw [splitLines_cons_nl]
    rfl
  | cons c t ih =>
    by_cases hc : c = '\n'
    · subst hc
      rw [List.cons_append, splitLines_cons_nl, ih, splitLines_cons_nl, List.cons_append]
    · obtain ⟨h0, r, hs⟩ := splitLines_decomp t
      rw [List.cons_append,
        splitLines_cons_of_ne c _ hc h0 (r ++ splitLines b) (by rw [ih, hs]; rfl),
        splitLines_cons_of_ne c t hc h0 r hs, List.cons_append]

theorem splitLines_single (l : Str) (h : '\n' ∉ l) : splitLines l = [l] := by
  induction l with
  | nil => rfl
  | cons c t ih =>
    have hc : ¬ (c = '\n') := fun he => h (he ▸ List.mem_cons_self c t)
    have ht : '\n' ∉ t := fun hm => h (List.mem_cons_of_mem c hm)
    exact splitLines_cons_of_ne c t hc t [] (ih ht)

theorem splitLines_joinLines : ∀ ls : List Str, ls ≠ [] → (∀ l ∈ ls, '\n' ∉ l) →
    splitLines (joinLines ls) = ls
  | [], h, _ => absurd rfl h
  | [l], _, hnl => by
      show splitLines l = [l]
      exact splitLines_single l (hnl l (List.mem_cons_self l []))
  | l :: l2 :: t, _, hnl => by
      show splitLines (l ++ '\n' :: joinLines (l2 :: t)) = l :: l2 :: t
      rw [splitLines_append, splitLines_single l (hnl l (by simp)),
        splitLines_joinLines (l2 :: t) (by simp) (fun x hx => hnl x (List.mem_cons_of_mem l hx))]
      rfl

theorem mem_splitLines_no_nl (s : Str) : ∀ l ∈ splitLines s, '\n' ∉ l := by
  induction s with
  | nil =>
    intro l hl
    simp [splitLines] at hl
    simp [hl]
  | cons c rest ih =>
    intro l hl
    by_cases hc : c = '\n'
    · subst hc
      rw [splitLines_cons_nl] at hl
      rcases List.mem_cons.mp hl with h1 | h2
      · simp [h1]
      · exact ih l h2
    · obtain ⟨h0, r, hs⟩ := splitLines_decomp rest
      rw [splitLines_cons_of_ne c rest hc h0 r hs] at hl
      rcases List.mem_cons.mp hl with h1 | h2
      · subst h1
        intro hm
        rcases List.mem_cons.mp hm with he | hm2
        · exact hc he.symm
        · exact ih h0 (hs ▸ List.mem_cons_self h0 r) hm2
      · exact ih l (hs ▸ List.mem_cons_of_mem h0 h2)

theorem joinLines_splitLines (s : Str) : joinLines (splitLines s) = s := by
  induction s with
  | nil => rfl
  | cons c rest ih =>
    obtain ⟨h0, r, hs⟩ := splitLines_decomp rest
    by_cases hc : c = '\n'
    · subst hc
      rw [splitLines_cons_nl, hs]
      show '\n' :: joinLines (h0 :: r) = '\n' :: rest
      rw [← hs, ih]
    · rw [splitLines_cons_of_ne c rest hc h0 r hs]
      cases r with
      | nil =>
        show c :: h0 = c :: rest
        have h2 : joinLines (h0 :: ([] : List Str)) = rest := by rw [← hs]; exact ih
        rw [show joinLines (h0 :: ([] : List Str)) = h0 from rfl] at h2
        rw [h2]
      | cons r0 rr =>
        show (c :: h0) ++ '\n' :: joinLines (r0 :: rr) = c :: rest
        have h2 : joinLines (h0 :: r0 :: rr) = rest := by rw [← hs]; exact ih
        show c :: (h0 ++ '\n' :: joinLines (r0 :: rr)) = c :: rest
        rw [show h0 ++ '\n' :: joinLines (r0 :: rr) = joinLines (h0 :: r0 :: rr) from rfl, h2]

/-! ### Preservation of the good-shape invariant during import -/

theorem lastIsCode_nil : lastIsCode [] := by
  intro b hb
  simp at hb

theorem lastIsCode_snoc_code (bs : List Block) (b : Block) (hb : b.type = .code) :
    lastIsCode (bs ++ [b]) := by
  intro x hx
  rw [List.getLast?_append_of_ne_nil _ (by simp)] at hx
  simp only [List.getLast?_singleton, Option.some.injEq] at hx
  subst hx
  exact hb

theorem goodPend_toBlock (pb : PBlock) (h : GoodPend pb) : GoodBlock pb.toBlock := by
  unfold GoodPend at h
  unfold GoodBlock PBlock.toBlock
  rcases h with ⟨ht, hc⟩ | ⟨hT, rs, hrs, hgood⟩
  · left
    exact ⟨rfl, by simpa using ht, rfl, by simpa using hc⟩
  · right
    left
    refine ⟨rfl, by simpa using hT, rfl, ⟨rs, by simpa using hrs, hgood⟩⟩

theorem chainOK_snoc (bs : List Block) (b : Block) (h : blocksChainOK bs)
    (hb : (b.type = .text ∧ b.title = none) → lastIsCode bs) :
    blocksChainOK (bs ++ [b]) := by
  unfold blocksChainOK at *
  rw [List.chain'_append]
  refine ⟨h, List.chain'_singleton _, ?_⟩
  intro x hx y hy
  simp only [List.head?_cons, Option.mem_def, Option.some.injEq] at hy
  subst hy
  intro huntitled
  exact hb huntitled x hx

theorem chainOK_nil : blocksChainOK [] := List.chain'_nil

/-- The flushed in-progress block extends a good block list. -/
theorem flush_good (s : Section) (pb : PBlock)
    (hblocks : ∀ b ∈ s.blocks, GoodBlock b) (hchain : blocksChainOK s.blocks)
    (hpend : GoodPend pb)
    (huntitled : pb.title = none → lastIsCode s.blocks) :
    (∀ b ∈ (addBlock s pb.toBlock).blocks, GoodBlock b) ∧
      blocksChainOK (addBlock s pb.toBlock).blocks := by
  unfold addBlock
  constructor
  · intro b hb
    rcases List.mem_append.mp hb with hb1 | hb2
    · exact hblocks b hb1
    · rw [List.mem_singleton.mp hb2]
      exact goodPend_toBlock pb hpend
  · exact chainOK_snoc _ _ hchain (fun hu => huntitled (by simpa [PBlock.toBlock] using hu.2))

theorem invG_h2 (now : Nat) (line : Str) (st : PState) (hln : '\n' ∉ line) (h : InvG st) :
    InvG (h2Step now line st) := by
  obtain ⟨secs, cs, cb, c⟩ := st
  obtain ⟨h1, h2, h3, h4, h5⟩ := h
  have hnewt : goodTitle (trim (line.drop 3)) := goodTitle_trim _ (drop_no_nl line 3 hln)
  cases cs with
  | some s =>
    have hsec := h2 s rfl
    cases cb with
    | some pb =>
      rw [h2Step_SS]
      have hflush := flush_good s pb hsec.2.1 hsec.2.2 (h3 pb rfl)
        (fun hu => by
          obtain ⟨s0, hs0, hlast⟩ := h4 pb rfl hu
          simp only [Option.some.injEq] at hs0
          rwa [hs0])
      refine ⟨?_, ?_, ?_, ?_, ?_⟩
      · intro x hx
        rcases List.mem_append.mp hx with hx1 | hx2
        · exact h1 x hx1
        · rw [List.mem_singleton.mp hx2]
          exact ⟨hsec.1, hflush.1, hflush.2⟩
      · intro x hx
        simp only [Option.some.injEq] at hx
        subst hx
        exact ⟨hnewt, by intro b hb; simp [newSec] at hb, by simp [newSec, chainOK_nil]⟩
      · intro pb0 hpb0
        simp at hpb0
      · intro pb0 hpb0
        simp at hpb0
      · intro _ x hx
        simp only [Option.some.injEq] at hx
        subst hx
        simp only [newSec]
        exact lastIsCode_nil
    | none =>
      rw [h2Step_SN]
      refine ⟨?_, ?_, ?_, ?_, ?_⟩
      · intro x hx
        rcases List.mem_append.mp hx with hx1 | hx2
        · exact h1 x hx1
        · rw [List.mem_singleton.mp hx2]
          exact ⟨hsec.1, hsec.2.1, hsec.2.2⟩
      · intro x hx
        simp only [Option.some.injEq] at hx
        subst hx
        exact ⟨hnewt, by intro b hb; simp [newSec] at hb, by simp [newSec, chainOK_nil]⟩
      · intro pb0 hpb0
        simp at hpb0
      · intro pb0 hpb0
        simp at hpb0
      · intro _ x hx
        simp only [Option.some.injEq] at hx
        subst hx
        simp only [newSec]
        exact lastIsCode_nil
  | none =>
    rw [h2Step_N]
    refine ⟨h1, ?_, h3, ?_, ?_⟩
    · intro x hx
      simp only [Option.some.injEq] at hx
      subst hx
      exact ⟨hnewt, by intro b hb; simp [newSec] at hb, by simp [newSec, chainOK_nil]⟩
    · intro pb0 hpb0 hu
      exact ⟨newSec now secs.length line, rfl, by simp only [newSec]; exact lastIsCode_nil⟩
    · intro _ x hx
      simp only [Option.some.injEq] at hx
      subst hx
      simp only [newSec]
      exact lastIsCode_nil

theorem fenceLang_ne_nil (line : Str) : fenceLang line ≠ [] := by
  unfold fenceLang
  split
  · decide
  · assumption

theorem fenceLang_word (line : Str) : ∀ ch ∈ fenceLang line, isWordChar ch = true := by
  unfold fenceLang
  split
  · intro ch hch
    rw [show sText = ['t', 'e', 'x', 't'] from by decide] at hch
    simp only [List.mem_cons, List.not_mem_nil, or_false] at hch
    rcases hch with rfl | rfl | rfl | rfl <;> decide
  · intro ch hch
    exact List.mem_takeWhile_imp hch

theorem goodCode (csId : Str) (c : Nat) (line : Str) (codeLines : List Str)
    (hc : ∀ l ∈ codeLines, startsW l sFence = false ∧ '\n' ∉ l) :
    GoodBlock (codeBlockOf csId c line codeLines) := by
  unfold GoodBlock codeBlockOf
  right
  right
  refine ⟨rfl, rfl, ⟨fenceLang line, rfl, fenceLang_ne_nil line, fenceLang_word line⟩, ?_⟩
  cases codeLines with
  | nil =>
    intro l hl
    simp only [joinLines] at hl
    simp only [splitLines] at hl
    rw [List.mem_singleton.mp hl]
    rfl
  | cons c0 cl =>
    intro l hl
    rw [splitLines_joinLines (c0 :: cl) (by simp) (fun x hx => (hc x hx).2)] at hl
    exact (hc l hl).1

theorem invG_h3 (csId : Str) (line : Str) (st : PState) (hln : '\n' ∉ line)
    (hpro : trim (line.drop 4) ≠ []) (h : InvG st) : InvG (h3Step csId line st) := by
  obtain ⟨secs, cs, cb, c⟩ := st
  obtain ⟨h1, h2, h3, h4, h5⟩ := h
  have hpend : GoodPend (newTitled csId (c + 1) line) := by
    unfold GoodPend newTitled
    right
    refine ⟨⟨trim (line.drop 4), rfl, hpro, goodTitle_trim _ (drop_no_nl line 4 hln)⟩, [], ?_, ?_⟩
    · rfl
    · intro l hl
      simp at hl
  cases cb with
  | some pb =>
    cases cs with
    | some s =>
      rw [h3Step_SS]
      have hsec := h2 s rfl
      have hflush := flush_good s pb hsec.2.1 hsec.2.2 (h3 pb rfl)
        (fun hu => by
          obtain ⟨s0, hs0, hlast⟩ := h4 pb rfl hu
          simp only [Option.some.injEq] at hs0
          rwa [hs0])
      refine ⟨h1, ?_, ?_, ?_, ?_⟩
      · intro x hx
        simp only [Option.some.injEq] at hx
        subst hx
        exact ⟨hsec.1, hflush.1, hflush.2⟩
      · intro pb0 hpb0
        simp only [Option.some.injEq] at hpb0
        subst hpb0
        exact hpend
      · intro pb0 hpb0 hu
        simp only [Option.some.injEq] at hpb0
        subst hpb0
        simp [newTitled] at hu
      · intro hnone
        simp at hnone
    | none =>
      rw [h3Step_NS]
      refine ⟨h1, ?_, ?_, ?_, ?_⟩
      · intro x hx
        simp at hx
      · intro pb0 hpb0
        simp only [Option.some.injEq] at hpb0
        subst hpb0
        exact hpend
      · intro pb0 hpb0 hu
        simp only [Option.some.injEq] at hpb0
        subst hpb0
        simp [newTitled] at hu
      · intro hnone
        simp at hnone
  | none =>
    rw [h3Step_B]
    refine ⟨h1, h2, ?_, ?_, ?_⟩
    · intro pb0 hpb0
      simp only [Option.some.injEq] at hpb0
      subst hpb0
      exact hpend
    · intro pb0 hpb0 hu
      simp only [Option.some.injEq] at hpb0
      subst hpb0
      simp [newTitled] at hu
    · intro hnone
      simp at hnone

theorem invG_fence (csId : Str) (line : Str) (codeLines : List Str) (st : PState)
    (hc : ∀ l ∈ codeLines, startsW l sFence = false ∧ '\n' ∉ l) (h : InvG st) :
    InvG (fenceStep csId line codeLines st) := by
  obtain ⟨secs, cs, cb, c⟩ := st
  obtain ⟨h1, h2, h3, h4, h5⟩ := h
  have hcode := goodCode csId (c + 1) line codeLines hc
  have hcodety : (codeBlockOf csId (c + 1) line codeLines).type = .code := rfl
  cases cs with
  | some s =>
    have hsec := h2 s rfl
    cases cb with
    | some pb =>
      rw [fenceStep_SS]
      have hflush := flush_good s pb hsec.2.1 hsec.2.2 (h3 pb rfl)
        (fun hu => by
          obtain ⟨s0, hs0, hlast⟩ := h4 pb rfl hu
          simp only [Option.some.injEq] at hs0
          rwa [hs0])
      refine ⟨h1, ?_, ?_, ?_, ?_⟩
      · intro x hx
        simp only [Option.some.injEq] at hx
        subst hx
        refine ⟨hsec.1, ?_, ?_⟩
        · intro b hb
          rcases List.mem_append.mp hb with hb1 | hb2
          · exact hflush.1 b hb1
          · rw [List.mem_singleton.mp hb2]
            exact hcode
        · exact chainOK_snoc _ _ hflush.2 (fun hu => absurd hu.1 (by rw [hcodety]; simp))
      · intro pb0 hpb0
        simp at hpb0
      · intro pb0 hpb0
        simp at hpb0
      · intro _ x hx
        simp only [Option.some.injEq] at hx
        subst hx
        exact lastIsCode_snoc_code _ _ hcodety
    | none =>
      rw [fenceStep_SN]
      refine ⟨h1, ?_, ?_, ?_, ?_⟩
      · intro x hx
        simp only [Option.some.injEq] at hx
        subst hx
        refine ⟨hsec.1, ?_, ?_⟩
        · intro b hb
          rcases List.mem_append.mp hb with hb1 | hb2
          · exact hsec.2.1 b hb1
          · rw [List.mem_singleton.mp hb2]
            exact hcode
        · exact chainOK_snoc _ _ hsec.2.2 (fun hu => absurd hu.1 (by rw [hcodety]; simp))
      · intro pb0 hpb0
        simp at hpb0
      · intro pb0 hpb0
        simp at hpb0
      · intro _ x hx
        simp only [Option.some.injEq] at hx
        subst hx
        exact lastIsCode_snoc_code _ _ hcodety
  | none =>
    rw [fenceStep_N]
    refine ⟨h1, ?_, ?_, ?_, ?_⟩
    · intro x hx
      simp at hx
    · intro pb0 hpb0
      simp at hpb0
    · intro pb0 hpb0
      simp at hpb0
    · intro _ x hx
      simp at hx

theorem invG_text (now : Nat) (csId : Str) (line : Str) (st : PState)
    (hgood : goodContentLine line) (hln : '\n' ∉ line) (h : InvG st) :
    InvG (textStep now csId line st) := by
  obtain ⟨secs, cs, cb, c⟩ := st
  obtain ⟨h1, h2, h3, h4, h5⟩ := h
  have himp : goodTitle sImported ∧ (∀ b ∈ (importedSec now).blocks, GoodBlock b) ∧
      blocksChainOK (importedSec now).blocks := by
    refine ⟨by constructor <;> decide, ?_, ?_⟩
    · intro b hb
      simp [importedSec] at hb
    · simp [importedSec, chainOK_nil]
  have hnewpend : GoodPend (newUntitled csId (c + 1) line) := by
    unfold GoodPend newUntitled
    left
    refine ⟨rfl, ?_⟩
    intro l hl
    rw [splitLines_single line hln] at hl
    rw [List.mem_singleton.mp hl]
    exact hgood
  cases cs with
  | some s =>
    cases cb with
    | none =>
      rw [textStep_SN]
      refine ⟨h1, h2, ?_, ?_, ?_⟩
      · intro pb0 hpb0
        simp only [Option.some.injEq] at hpb0
        subst hpb0
        exact hnewpend
      · intro pb0 hpb0 _
        exact ⟨s, rfl, h5 rfl s rfl⟩
      · intro hnone
        simp at hnone
    | some pb =>
      rw [textStep_SS]
      refine ⟨h1, h2, ?_, ?_, ?_⟩
      · intro pb0 hpb0
        simp only [Option.some.injEq] at hpb0
        subst hpb0
        have hp := h3 pb rfl
        unfold GoodPend appendLine at *
        rw [show (({ pb with content := pb.content ++ '\n' :: line } : PBlock)).content =
            pb.content ++ '\n' :: line from rfl] at *
        rw [splitLines_append, splitLines_single line hln]
        rcases hp with ⟨ht, hcl⟩ | ⟨hT, rs, hrs, hgoodrs⟩
        · left
          refine ⟨ht, ?_⟩
          intro l hl
          rcases List.mem_append.mp hl with hl1 | hl2
          · exact hcl l hl1
          · rw [List.mem_singleton.mp hl2]
            exact hgood
        · right
          refine ⟨hT, rs ++ [line], by rw [hrs]; rfl, ?_⟩
          intro l hl
          rcases List.mem_append.mp hl with hl1 | hl2
          · exact hgoodrs l hl1
          · rw [List.mem_singleton.mp hl2]
            exact hgood
      · intro pb0 hpb0 hu
        simp only [Option.some.injEq] at hpb0
        subst hpb0
        have hu2 : pb.title = none := by simpa [appendLine] using hu
        obtain ⟨s0, hs0, hlast⟩ := h4 pb rfl hu2
        simp only [Option.some.injEq] at hs0
        exact ⟨s, rfl, by rwa [hs0]⟩
      · intro hnone
        simp at hnone
  | none =>
    cases cb with
    | none =>
      rw [textStep_NN]
      refine ⟨h1, ?_, ?_, ?_, ?_⟩
      · intro x hx
        simp only [Option.some.injEq] at hx
        subst hx
        exact himp
      · intro pb0 hpb0
        simp only [Option.some.injEq] at hpb0
        subst hpb0
        exact hnewpend
      · intro pb0 hpb0 _
        exact ⟨importedSec now, rfl, by simp [importedSec]; exact lastIsCode_nil⟩
      · intro hnone
        simp at hnone
    | some pb =>
      rw [textStep_NS]
      refine ⟨h1, ?_, ?_, ?_, ?_⟩
      · intro x hx
        simp only [Option.some.injEq] at hx
        subst hx
        exact himp
      · intro pb0 hpb0
        simp only [Option.some.injEq] at hpb0
        subst hpb0
        have hp := h3 pb rfl
        unfold GoodPend appendLine at *
        rw [show (({ pb with content := pb.content ++ '\n' :: line } : PBlock)).content =
            pb.content ++ '\n' :: line from rfl] at *
        rw [splitLines_append, splitLines_single line hln]
        rcases hp with ⟨ht, hcl⟩ | ⟨hT, rs, hrs, hgoodrs⟩
        · left
          refine ⟨ht, ?_⟩
          intro l hl
          rcases List.mem_append.mp hl with hl1 | hl2
          · exact hcl l hl1
          · rw [List.mem_singleton.mp hl2]
            exact hgood
        · right
          refine ⟨hT, rs ++ [line], by rw [hrs]; rfl, ?_⟩
          intro l hl
          rcases List.mem_append.mp hl with hl1 | hl2
          · exact hgoodrs l hl1
          · rw [List.mem_singleton.mp hl2]
            exact hgood
      · intro pb0 hpb0 hu
        simp only [Option.some.injEq] at hpb0
        subst hpb0
        have hu2 : pb.title = none := by simpa [appendLine] using hu
        obtain ⟨s0, hs0, _⟩ := h4 pb rfl hu2
        simp at hs0
      · intro hnone
        simp at hnone

theorem bool_eq_false {b : Bool} (h : ¬ b = true) : b = false := by
  cases b
  · rfl
  · exact absurd rfl h

theorem invG_parseGo (now : Nat) (csId : Str) :
    ∀ (n : Nat) (ls : List Str) (st : PState), (∀ l ∈ ls, lineOK l) → InvG st →
      InvG (parseGo now csId n ls st) := by
  intro n
  induction n with
  | zero =>
    intro ls st _ h
    cases ls <;> exact h
  | succ n ih =>
    intro ls st hls h
    cases ls with
    | nil => exact h
    | cons line rest =>
      have hline : lineOK line := hls line (List.mem_cons_self line rest)
      have hrest : ∀ l ∈ rest, lineOK l := fun l hl => hls l (List.mem_cons_of_mem line hl)
      simp only [parseGo]
      split
      · exact ih rest _ hrest (invG_h2 now line st hline.1 h)
      · split
        next hcond3 =>
          exact ih rest _ hrest (invG_h3 csId line st hline.1 (hline.2 hcond3) h)
        next =>
          split
          · refine ih _ _ ?_ (invG_fence csId line _ st ?_ h)
            · intro l hl
              have hl2 : l ∈ rest := (List.dropWhile_sublist (fun l => !startsW l sFence)).mem
                ((List.drop_sublist 1 _).mem hl)
              exact hrest l hl2
            · intro l hl
              have hmem : l ∈ rest :=
                (List.takeWhile_sublist (fun l => !startsW l sFence)).mem hl
              have hpred := List.mem_takeWhile_imp hl
              simp only [Bool.not_eq_true'] at hpred
              exact ⟨hpred, (hrest l hmem).1⟩
          · split
            next htrim =>
              refine ih rest _ hrest (invG_text now csId line st ?_ hline.1 h)
              next hc2 hc3 hcf =>
                exact ⟨htrim, bool_eq_false hc2, bool_eq_false hc3, bool_eq_false hcf⟩
            next => exact ih rest _ hrest h

theorem finishParse_eq (now : Nat) (name csId : Str) (st : PState) :
    finishParse now name csId st =
      { id := csId, name := name,
        sections := if flushSecs st = [] then [importedSec now] else flushSecs st,
        created := isoNow now, updated := isoNow now } := by
  obtain ⟨secs, cs, cb, c⟩ := st
  cases cs <;> cases cb <;> rfl

theorem flushSecs_good (st : PState) (h : InvG st) : ∀ s ∈ flushSecs st, GoodSec s := by
  obtain ⟨secs, cs, cb, c⟩ := st
  obtain ⟨h1, h2, h3, h4, h5⟩ := h
  cases cs with
  | some s =>
    have hsec := h2 s rfl
    cases cb with
    | some pb =>
      have hflush := flush_good s pb hsec.2.1 hsec.2.2 (h3 pb rfl)
        (fun hu => by
          obtain ⟨s0, hs0, hlast⟩ := h4 pb rfl hu
          simp only [Option.some.injEq] at hs0
          rwa [hs0])
      intro x hx
      rcases List.mem_append.mp hx with hx1 | hx2
      · exact h1 x hx1
      · rw [List.mem_singleton.mp hx2]
        exact ⟨hsec.1, hflush.1, hflush.2⟩
    | none =>
      intro x hx
      rcases List.mem_append.mp hx with hx1 | hx2
      · exact h1 x hx1
      · rw [List.mem_singleton.mp hx2]
        exact hsec
  | none =>
    cases cb with
    | some pb => exact h1
    | none => exact h1

theorem goodSec_imported (now : Nat) : GoodSec (importedSec now) := by
  have ht : goodTitle sImported := ⟨by decide, by decide⟩
  refine ⟨ht, ?_, ?_⟩
  · intro b hb
    simp [importedSec] at hb
  · simp [importedSec]
    exact chainOK_nil

theorem invG_finish (now : Nat) (name csId : Str) (st : PState) (h : InvG st) :
    GoodDoc (finishParse now name csId st) := by
  rw [finishParse_eq]
  constructor
  · show (if flushSecs st = [] then [importedSec now] else flushSecs st) ≠ []
    split
    · simp
    · assumption
  · intro s hs
    simp only at hs
    split at hs
    · rw [List.mem_singleton.mp hs]
      exact goodSec_imported now
    · exact flushSecs_good st h s hs

theorem invG_init : InvG initPState := by
  refine ⟨?_, ?_, ?_, ?_, ?_⟩ <;> intro x hx <;> simp [initPState] at hx ⊢

/-- The importer only produces documents of the good shape, provided every
`###` header line carries a non-blank title. -/
theorem import_good (md name : Str) (now : Nat)
    (hmd : ∀ l ∈ splitLines md, startsW l sH3 = true → trim (l.drop 4) ≠ []) :
    GoodDoc (parse_markdown_to_cheatsheet md name now) := by
  unfold parse_markdown_to_cheatsheet parseLines
  apply invG_finish
  apply invG_parseGo
  · intro l hl
    exact ⟨mem_splitLines_no_nl md l hl, hmd l hl⟩
  · exact invG_init

/-! ### The lines of an exported document -/

theorem isWordChar_no_nl (ch : Char) (h : isWordChar ch = true) : ¬ (ch = '\n') := by
  intro he
  subst he
  simp [isWordChar] at h

theorem exportLang_no_nl (b : Block) (hb : GoodBlock b) : '\n' ∉ exportLang b := by
  rcases hb with ⟨_, _, hl, _⟩ | ⟨_, _, hl, _⟩ | ⟨_, _, ⟨L, hL, hne, hword⟩, _⟩
  · intro hm
    rw [exportLang, hl] at hm
    revert hm
    decide
  · intro hm
    rw [exportLang, hl] at hm
    revert hm
    decide
  · intro hm
    rw [exportLang, hL] at hm
    dsimp only at hm
    rw [if_neg hne] at hm
    exact isWordChar_no_nl '\n' (hword '\n' hm) rfl

theorem item_lines_text (co : Str) :
    splitLines (sNL ++ co ++ sNL) = [[]] ++ splitLines co ++ [[]] := by
  rw [show sNL ++ co ++ sNL = '\n' :: (co ++ '\n' :: []) from by simp [sNL],
    splitLines_cons_nl, splitLines_append co []]
  rfl

theorem item_lines_header (pre : Str) (hpre : '\n' ∉ pre) (t : Str) (h : '\n' ∉ t) :
    splitLines (sNL ++ pre ++ t ++ sNL) = [[], pre ++ t, []] := by
  rw [show sNL ++ pre ++ t ++ sNL = '\n' :: ((pre ++ t) ++ '\n' :: []) from by
      simp [sNL, List.append_assoc],
    splitLines_cons_nl, splitLines_append (pre ++ t) [],
    splitLines_single (pre ++ t) (by
      intro hm
      rcases List.mem_append.mp hm with h1 | h2
      · exact hpre h1
      · exact h h2)]
  rfl

theorem item_lines_code (L co : Str) (h : '\n' ∉ L) :
    splitLines (sNL ++ sFence ++ L ++ sNL ++ co ++ sNL ++ sFence ++ sNL) =
      [[], sFence ++ L] ++ splitLines co ++ [sFence, []] := by
  rw [show sNL ++ sFence ++ L ++ sNL ++ co ++ sNL ++ sFence ++ sNL =
      '\n' :: ((sFence ++ L) ++ '\n' :: (co ++ '\n' :: (sFence ++ '\n' :: []))) from by
      simp [sNL, List.append_assoc],
    splitLines_cons_nl, splitLines_append (sFence ++ L), splitLines_append co,
    splitLines_append sFence [],
    splitLines_single (sFence ++ L) (by
      intro hm
      rcases List.mem_append.mp hm with h1 | h2
      · revert h1
        decide
      · exact h h2),
    splitLines_single sFence (by decide)]
  rfl

theorem flatMap_congr_mem {α β : Type} (xs : List α) (f g : α → List β)
    (h : ∀ x ∈ xs, f x = g x) : xs.flatMap f = xs.flatMap g := by
  induction xs with
  | nil => rfl
  | cons x t ih =>
    rw [List.flatMap_cons, List.flatMap_cons, h x (List.mem_cons_self x t),
      ih (fun y hy => h y (List.mem_cons_of_mem x hy))]

theorem blockItems_lines (b : Block) (hb : GoodBlock b) :
    (blockItems b).flatMap splitLines = blockLines b := by
  have hlang := exportLang_no_nl b hb
  rcases hb with ⟨hty, hti, _, _⟩ | ⟨hty, ⟨T, hti, hTne, hTgood⟩, _, _⟩ |
    ⟨hty, hti, ⟨L, hL, hLne, _⟩, _⟩
  · unfold blockItems blockLines
    rw [hti, hty]
    dsimp only
    show ([] ++ [sNL ++ b.content ++ sNL]).flatMap splitLines =
      [] ++ ([[]] ++ splitLines b.content ++ [[]])
    simp only [List.nil_append, List.flatMap_cons, List.flatMap_nil, List.append_nil]
    exact item_lines_text b.content
  · unfold blockItems blockLines
    rw [hti, hty]
    dsimp only
    rw [if_neg hTne, if_neg hTne]
    show ([sNL ++ sH3 ++ T ++ sNL] ++ [sNL ++ b.content ++ sNL]).flatMap splitLines =
      [[], sH3 ++ T, []] ++ ([[]] ++ splitLines b.content ++ [[]])
    rw [List.flatMap_append]
    simp only [List.flatMap_cons, List.flatMap_nil, List.append_nil]
    rw [item_lines_header sH3 (by decide) T hTgood.2, item_lines_text b.content]
  · unfold blockItems blockLines
    rw [hti, hty]
    dsimp only
    show ([] ++ [sNL ++ sFence ++ exportLang b ++ sNL ++ b.content ++ sNL ++ sFence ++ sNL]
        ).flatMap splitLines =
      [] ++ ([[], sFence ++ exportLang b] ++ splitLines b.content ++ [sFence, []])
    simp only [List.nil_append, List.flatMap_cons, List.flatMap_nil, List.append_nil]
    exact item_lines_code (exportLang b) b.content hlang

theorem sectionItems_lines (s : Section) (hs : GoodSec s) :
    (sectionItems s).flatMap splitLines = secLines s := by
  unfold sectionItems secLines
  rw [List.flatMap_append]
  simp only [List.flatMap_cons, List.flatMap_nil, List.append_nil]
  rw [item_lines_header sH2 (by decide) s.title hs.1.2, List.flatMap_assoc]
  rw [flatMap_congr_mem s.blocks _ _ (fun b hb => blockItems_lines b (hs.2.1 b hb))]

theorem splitLines_joinItems : ∀ (items : List Str), items ≠ [] →
    splitLines (joinLines items) = items.flatMap splitLines
  | [], h => absurd rfl h
  | [i], _ => by
      show splitLines i = splitLines i ++ []
      rw [List.append_nil]
  | i :: i2 :: t, _ => by
      show splitLines (i ++ '\n' :: joinLines (i2 :: t)) = _
      rw [splitLines_append, splitLines_joinItems (i2 :: t) (by simp)]
      rfl

theorem sectionItems_ne_nil (s : Section) : sectionItems s ≠ [] := by
  unfold sectionItems
  simp

theorem strip_export_lines (d : Cheatsheet) (hd : GoodDoc d) :
    splitLines (stripHeader d.name (export_cheatsheet_markdown d)) =
      [] :: d.sections.flatMap secLines := by
  obtain ⟨hne, hgood⟩ := hd
  have hrest : d.sections.flatMap sectionItems ≠ [] := by
    cases hsec : d.sections with
    | nil => exact absurd hsec hne
    | cons s ss =>
      rw [List.flatMap_cons]
      intro he
      rcases List.append_eq_nil.mp he with ⟨h1, _⟩
      exact sectionItems_ne_nil s h1
  obtain ⟨r0, rr, hr⟩ : ∃ r0 rr, d.sections.flatMap sectionItems = r0 :: rr := by
    cases hx : d.sections.flatMap sectionItems with
    | nil => exact absurd hx hrest
    | cons a b => exact ⟨a, b, rfl⟩
  show splitLines ((joinLines ((sH1 ++ d.name ++ sNL) :: d.sections.flatMap sectionItems)).drop
      (sH1 ++ d.name ++ sNL).length) = [] :: d.sections.flatMap secLines
  rw [hr,
    show joinLines ((sH1 ++ d.name ++ sNL) :: r0 :: rr) =
      (sH1 ++ d.name ++ sNL) ++ ('\n' :: joinLines (r0 :: rr)) from rfl,
    List.drop_left, splitLines_cons_nl, splitLines_joinItems (r0 :: rr) (by simp), ← hr,
    List.flatMap_assoc,
    flatMap_congr_mem d.sections _ _ (fun s hs => sectionItems_lines s (hgood s hs))]

/-! ### Step equations for the importer loop -/

theorem length_dropWhile_le {α : Type} (p : α → Bool) :
    (l : List α) → (l.dropWhile p).length ≤ l.length
  | [] => Nat.le_refl _
  | a :: t => by
    simp only [List.dropWhile]
    split
    · exact Nat.le_succ_of_le (length_dropWhile_le p t)
    · exact Nat.le_refl _

theorem parseGo_irrel (now : Nat) (csId : Str) :
    ∀ (n : Nat) (ls : List Str) (st : PState) (m : Nat), ls.length ≤ n → ls.length ≤ m →
      parseGo now csId n ls st = parseGo now csId m ls st := by
  intro n
  induction n with
  | zero =>
    intro ls st m h1 _
    have : ls = [] := List.length_eq_zero.mp (Nat.le_zero.mp h1)
    subst this
    cases m <;> rfl
  | succ n ih =>
    intro ls st m h1 h2
    cases ls with
    | nil => cases m <;> rfl
    | cons l rest =>
      cases m with
      | zero => simp at h2
      | succ m =>
        simp only [List.length_cons, Nat.succ_le_succ_iff] at h1 h2
        show parseGo now csId (n + 1) (l :: rest) st = parseGo now csId (m + 1) (l :: rest) st
        simp only [parseGo]
        split
        · exact ih rest _ m h1 h2
        · split
          · exact ih rest _ m h1 h2
          · split
            · apply ih
              · have hd := length_dropWhile_le (fun l => !startsW l sFence) rest
                rw [List.length_drop]
                omega
              · have hd := length_dropWhile_le (fun l => !startsW l sFence) rest
                rw [List.length_drop]
                omega
            · split
              · exact ih rest _ m h1 h2
              · exact ih rest _ m h1 h2

theorem parseLines_nil (now : Nat) (csId : Str) (st : PState) :
    parseLines now csId [] st = st := rfl

theorem parseLines_cons_h2 (now : Nat) (csId : Str) (line : Str) (rest : List Str) (st : PState)
    (h : startsW line sH2 = true) :
    parseLines now csId (line :: rest) st = parseLines now csId rest (h2Step now line st) := by
  unfold parseLines
  show parseGo now csId (rest.length + 1) (line :: rest) st = _
  simp only [parseGo, h, if_true]

theorem parseLines_cons_h3 (now : Nat) (csId : Str) (line : Str) (rest : List Str) (st : PState)
    (h2 : startsW line sH2 = false) (h3 : startsW line sH3 = true) :
    parseLines now csId (line :: rest) st = parseLines now csId rest (h3Step csId line st) := by
  unfold parseLines
  show parseGo now csId (rest.length + 1) (line :: rest) st = _
  simp only [parseGo, h2, h3, if_true, Bool.false_eq_true, if_false]

theorem parseLines_cons_fence (now : Nat) (csId : Str) (line : Str) (rest : List Str) (st : PState)
    (h2 : startsW line sH2 = false) (h3 : startsW line sH3 = false)
    (hf : startsW line sFence = true) :
    parseLines now csId (line :: rest) st =
      parseLines now csId ((rest.dropWhile (fun l => !startsW l sFence)).drop 1)
        (fenceStep csId line (rest.takeWhile (fun l => !startsW l sFence)) st) := by
  unfold parseLines
  show parseGo now csId (rest.length + 1) (line :: rest) st = _
  simp only [parseGo, h2, h3, hf, if_true, Bool.false_eq_true, if_false]
  apply parseGo_irrel
  · have hd := length_dropWhile_le (fun l => !startsW l sFence) rest
    rw [List.length_drop]
    omega
  · exact Nat.le_refl _

theorem parseLines_cons_text (now : Nat) (csId : Str) (line : Str) (rest : List Str) (st : PState)
    (h2 : startsW line sH2 = false) (h3 : startsW line sH3 = false)
    (hf : startsW line sFence = false) (ht : trim line ≠ []) :
    parseLines now csId (line :: rest) st =
      parseLines now csId rest (textStep now csId line st) := by
  unfold parseLines
  show parseGo now csId (rest.length + 1) (line :: rest) st = _
  simp only [parseGo, h2, h3, hf, ht, if_true, Bool.false_eq_true, if_false, ne_eq,
    not_false_eq_true]

theorem parseLines_cons_blank (now : Nat) (csId : Str) (line : Str) (rest : List Str) (st : PState)
    (h2 : startsW line sH2 = false) (h3 : startsW line sH3 = false)
    (hf : startsW line sFence = false) (ht : trim line = []) :
    parseLines now csId (line :: rest) st = parseLines now csId rest st := by
  unfold parseLines
  show parseGo now csId (rest.length + 1) (line :: rest) st = _
  simp only [parseGo, h2, h3, hf, ht, Bool.false_eq_true, if_false, ne_eq, not_true_eq_false]

/-- Blank lines at the start of the remaining input change nothing. -/
theorem parseLines_blanks (now : Nat) (csId : Str) :
    ∀ (pre : List Str), (∀ l ∈ pre, trim l = []) → ∀ (ls : List Str) (st : PState),
      parseLines now csId (pre ++ ls) st = parseLines now csId ls st
  | [], _, ls, st => rfl
  | l :: pre, h, ls, st => by
    have hl : trim l = [] := h l (List.mem_cons_self l pre)
    rw [List.cons_append,
      parseLines_cons_blank now csId l (pre ++ ls) st (blank_not_h2 l hl) (blank_not_h3 l hl)
        (blank_not_fence l hl) hl,
      parseLines_blanks now csId pre (fun x hx => h x (List.mem_cons_of_mem l hx)) ls st]

theorem takeWhile_all_append {α : Type} (p : α → Bool) (xs : List α) (y : α) (ys : List α)
    (h : ∀ x ∈ xs, p x = true) (hy : p y = false) :
    (xs ++ y :: ys).takeWhile p = xs ∧ (xs ++ y :: ys).dropWhile p = y :: ys := by
  induction xs with
  | nil => simp [List.takeWhile, List.dropWhile, hy]
  | cons x t ih =>
    have hx : p x = true := h x (List.mem_cons_self x t)
    have iht := ih (fun z hz => h z (List.mem_cons_of_mem x hz))
    constructor
    · show ((x :: (t ++ y :: ys)).takeWhile p) = x :: t
      simp [List.takeWhile_cons, hx, iht.1]
    · show ((x :: (t ++ y :: ys)).dropWhile p) = y :: ys
      simp [List.dropWhile_cons, hx, iht.2]

/-- C7: for every fence line, the emitted code block's language is the run
of word characters immediately after the marker, defaulting to "text" when
that run is empty (tag absent or starting with a non-word character). -/
theorem C7_fence_language_default (tail name : Str) (now : Nat) (hnl : '\n' ∉ tail) :
    (parse_markdown_to_cheatsheet
        (joinLines [sH2 ++ ("S").toList, sFence ++ tail, ("x").toList, sFence]) name now).struct =
      [(("S").toList,
        [(none, .code, ("x").toList,
          some (if tail.takeWhile isWordChar = [] then sText else tail.takeWhile isWordChar))])] := by
  unfold parse_markdown_to_cheatsheet
  rw [splitLines_joinLines _ (by simp) (by
    intro l hl
    simp only [List.mem_cons, List.mem_singleton] at hl
    rcases hl with rfl | rfl | rfl | h
    · decide
    · intro hm
      rcases List.mem_append.mp hm with h1 | h2
      · revert h1
        decide
      · exact hnl h2
    · decide
    · simp at h
      simp [h]
      decide)]
  rw [parseLines_cons_h2 now _ _ _ _ (startsW_append_self _ _)]
  rw [parseLines_cons_fence now _ _ _ _ (startsW_fence_not_h2 tail) (startsW_fence_not_h3 tail)
    (startsW_append_self _ _)]
  rw [show List.takeWhile (fun l => !startsW l sFence) [("x").toList, sFence] = [("x").toList]
      from by decide,
    show List.drop 1 (List.dropWhile (fun l => !startsW l sFence) [("x").toList, sFence]) = []
      from by decide]
  show (finishParse now name (csIdOf now)
      (fenceStep (csIdOf now) (sFence ++ tail) [("x").toList]
        (h2Step now (sH2 ++ ("S").toList) initPState))).struct = _
  unfold h2Step fenceStep finishParse initPState
  dsimp only
  unfold Cheatsheet.struct Section.struct Block.struct
  simp only [List.map_cons, List.map_nil]
  rw [show trim ((sH2 ++ ("S").toList).drop 3) = ("S").toList from by
    rw [show (sH2 ++ ("S").toList).drop 3 = ("S").toList from rfl]
    decide]
  rw [show fenceLang (sFence ++ tail) =
      (if tail.takeWhile isWordChar = [] then sText else tail.takeWhile isWordChar) from by
    unfold fenceLang fenceTag
    rw [show (sFence ++ tail).drop 3 = tail from rfl]]
  rw [if_neg (by simp)]
  simp [joinLines]

/-- Witness for C7 at a concrete fence tag. -/
theorem C7_fence_language_default_witness :
    ('\n' ∉ (("python").toList : Str)) ∧
      (parse_markdown_to_cheatsheet
          (joinLines [sH2 ++ ("S").toList, sFence ++ ("python").toList, ("x").toList, sFence])
          (("N").toList) 7).struct =
        [(("S").toList,
          [(none, .code, ("x").toList,
            some (if (("python").toList : Str).takeWhile isWordChar = [] then sText
                  else (("python").toList : Str).takeWhile isWordChar))])] :=
  ⟨by decide, C7_fence_language_default (("python").toList) (("N").toList) 7 (by decide)⟩

/-- C9: a fenced code block that appears before any section header and any
non-blank text line is parsed, then dropped (no current section exists), and
the whole parse continues on the remaining lines with the shared block
counter already at 1 — so the discarded block leaves a gap in the y slots. -/
theorem C9_orphan_code_block_discarded (pre : List Str) (f : Str) (body rest : List Str)
    (name : Str) (now : Nat)
    (hpre : ∀ l ∈ pre, trim l = [] ∧ '\n' ∉ l)
    (hf : startsW f sFence = true) (hfn : '\n' ∉ f)
    (hbody : ∀ l ∈ body, startsW l sFence = false ∧ '\n' ∉ l)
    (hrest : ∀ l ∈ rest, '\n' ∉ l) :
    parse_markdown_to_cheatsheet (joinLines (pre ++ f :: (body ++ sFence :: rest))) name now =
      finishParse now name (csIdOf now)
        (parseLines now (csIdOf now) rest
          { sections := [], currentSection := none, currentBlock := none, counter := 1 }) := by
  obtain ⟨tl, rfl⟩ := startsW_decomp f sFence hf
  unfold parse_markdown_to_cheatsheet
  rw [splitLines_joinLines _ (by simp) (by
    intro l hl
    rcases List.mem_append.mp hl with h1 | h2
    · exact (hpre l h1).2
    · rcases List.mem_cons.mp h2 with rfl | h3
      · exact hfn
      · rcases List.mem_append.mp h3 with h4 | h5
        · exact (hbody l h4).2
        · rcases List.mem_cons.mp h5 with rfl | h6
          · decide
          · exact hrest l h6)]
  rw [parseLines_blanks now _ pre (fun l hl => (hpre l hl).1)]
  rw [parseLines_cons_fence now _ _ _ _ (startsW_fence_not_h2 tl) (startsW_fence_not_h3 tl)
    (startsW_append_self _ _)]
  rw [(takeWhile_all_append (fun l => !startsW l sFence) body sFence rest
      (by intro x hx; simp [(hbody x hx).1])
      (by simp [startsW_refl])).1,
    (takeWhile_all_append (fun l => !startsW l sFence) body sFence rest
      (by intro x hx; simp [(hbody x hx).1])
      (by simp [startsW_refl])).2]
  rw [show (sFence :: rest).drop 1 = rest from rfl]
  rfl

/-- Witness for C9 at a concrete input: the later block's y slot skips 0. -/
theorem C9_orphan_code_block_discarded_witness :
    ((∀ l ∈ ([[]] : List Str), trim l = [] ∧ '\n' ∉ l) ∧
      startsW (sFence ++ ("py").toList) sFence = true ∧ ('\n' ∉ sFence ++ ("py").toList) ∧
      (∀ l ∈ [("q").toList], startsW l sFence = false ∧ '\n' ∉ l) ∧
      (∀ l ∈ [sH2 ++ ("S").toList, ("hello").toList], '\n' ∉ l)) ∧
    (parse_markdown_to_cheatsheet
        (joinLines ([[]] ++ (sFence ++ ("py").toList) ::
          ([("q").toList] ++ sFence :: [sH2 ++ ("S").toList, ("hello").toList]))) (("N").toList) 0 =
      finishParse 0 (("N").toList) (csIdOf 0)
        (parseLines 0 (csIdOf 0) [sH2 ++ ("S").toList, ("hello").toList]
          { sections := [], currentSection := none, currentBlock := none, counter := 1 })) ∧
    ((parse_markdown_to_cheatsheet
        (joinLines ([[]] ++ (sFence ++ ("py").toList) ::
          ([("q").toList] ++ sFence :: [sH2 ++ ("S").toList, ("hello").toList]))) (("N").toList)
        0).sections.flatMap Section.blocks).map Block.y = [1] :=
  ⟨⟨by decide, by decide, by decide, by decide, by decide⟩,
    C9_orphan_code_block_discarded [[]] (sFence ++ ("py").toList) [("q").toList]
      [sH2 ++ ("S").toList, ("hello").toList] (("N").toList) 0
      (by decide) (by decide) (by decide) (by decide) (by decide),
    by decide⟩

/-- C5: for queries of length at least 2, search emits matches per document
in precedence order — one cheatsheet match when the query is a
(case-insensitive) substring of the name, then per section in order a
section match, then per block in order a block match; name/title matches
return the full name/title.  In particular, searching a single document
named "Go Basics" with no sections for "go" returns exactly the one
cheatsheet match with match text "Go Basics". -/
theorem C5_search_precedence_order (docs : List Cheatsheet) (q : Str) (h : 2 ≤ q.length) :
    search_cheatsheets docs q = docs.flatMap (docResults (lower q)) ∧
    search_cheatsheets [goBasicsSheet] (("go").toList) =
      [{ cheatsheet_id := ("gb").toList, cheatsheet_name := ("Go Basics").toList,
         type := sKindCheatsheet, matchText := ("Go Basics").toList }] :=
  ⟨search_eq_flatMap docs q h, by decide⟩

/-- Witness for C5 at a concrete document set and query. -/
theorem C5_search_precedence_order_witness :
    2 ≤ (("go").toList : Str).length ∧
      (search_cheatsheets [goBasicsSheet] (("go").toList) =
          [goBasicsSheet].flatMap (docResults (lower (("go").toList))) ∧
        search_cheatsheets [goBasicsSheet] (("go").toList) =
          [{ cheatsheet_id := ("gb").toList, cheatsheet_name := ("Go Basics").toList,
             type := sKindCheatsheet, matchText := ("Go Basics").toList }]) :=
  ⟨by decide, C5_search_precedence_order [goBasicsSheet] (("go").toList) (by decide)⟩

/-- C8: search with a query of length 0 or 1 returns the empty list, for
every document set. -/
theorem C8_short_query_guard (docs : List Cheatsheet) (q : Str) (h : q.length < 2) :
    search_cheatsheets docs q = [] := by
  unfold search_cheatsheets
  rw [if_pos (by simp [h])]

/-- Witness for C8 at a concrete document set and query. -/
theorem C8_short_query_guard_witness :
    ((("a").toList : Str).length < 2) ∧ search_cheatsheets [goBasicsSheet] (("a").toList) = [] :=
  ⟨by decide, C8_short_query_guard [goBasicsSheet] (("a").toList) (by decide)⟩

/-- C6: the importer is total — for every input it returns a document with
at least one section — and the empty input yields exactly one section
titled "Imported Content" with no blocks. -/
theorem C6_import_total_empty_default (md name : Str) (now : Nat) :
    (parse_markdown_to_cheatsheet md name now).sections ≠ [] ∧
    (parse_markdown_to_cheatsheet [] name now).struct = [(sImported, [])] := by
  constructor
  · unfold parse_markdown_to_cheatsheet finishParse
    dsimp only
    split
    · simp
    · next hne => exact hne
  · rfl

/-- C1 as stated is false: the "### Auth" in-progress block is not
discarded at the fence; the section holds it in addition to the code
block, so it does not hold exactly one code block. -/
theorem C1_counterexample :
    (parse_markdown_to_cheatsheet (("## API\n### Auth\n```python\nx = 1\n```\n").toList)
          cxName 0).struct ≠
      [(("API").toList, [(none, .code, ("x = 1").toList, some (("python").toList))])] := by
  decide

/-- C1 amended: importing that markdown yields one section titled "API"
whose blocks are exactly two — first the text block titled "Auth" with
empty content (the fence flushes the in-progress block into the section
rather than discarding it), then the code block with content "x = 1" and
language "python". -/
theorem C1_import_example_structure :
    (parse_markdown_to_cheatsheet (("## API\n### Auth\n```python\nx = 1\n```\n").toList)
          cxName 0).struct =
      [(("API").toList,
        [(some (("Auth").toList), .text, [], none),
         (none, .code, ("x = 1").toList, some (("python").toList))])] := by
  decide

/-- C2 as stated is false: a `###` header with a blank title is inside the
pure-text fragment, but its block's empty title is dropped by the exporter
(`if block.title:`), so re-importing the export merges blocks and changes
the structure. -/
theorem C2_counterexample :
    Fragment cxMd ∧
      (parse_markdown_to_cheatsheet (stripHeader cxName (export_cheatsheet_markdown
            (parse_markdown_to_cheatsheet cxMd cxName 0))) cxName 0).struct ≠
        (parse_markdown_to_cheatsheet cxMd cxName 0).struct := by
  constructor
  · show FragLines (splitLines cxMd)
    have hsplit : splitLines cxMd =
        [("## S").toList, ("hello").toList, ("### ").toList, ("world").toList] := by decide
    rw [hsplit]
    refine FragLines.header _ _ (Or.inr (Or.inl (by decide))) ?_
    refine FragLines.para _ _ (by decide) ?_
    refine FragLines.header _ _ (Or.inr (Or.inr (by decide))) ?_
    exact FragLines.para _ _ (by decide) FragLines.nil
  · decide

theorem lower_length (s : Str) : (lower s).length = s.length := List.length_map s _

theorem containsSub_nil (n : Str) (hn : n ≠ []) : containsSub [] n = false := by
  cases n with
  | nil => exact absurd rfl hn
  | cons c t => rfl

theorem containsSub_some (hay n : Str) (h : containsSub hay n = true) :
    ∃ i, findFrom n hay 0 = some i := by
  unfold containsSub at h
  exact Option.isSome_iff_exists.mp h

theorem containsSub_none (hay n : Str) (h : containsSub hay n = false) :
    findFrom n hay 0 = none := by
  unfold containsSub at h
  exact Option.not_isSome_iff_eq_none.mp (by simp [h])

/-- Search on the one-block fixture returns exactly the block match record,
whenever the block branch condition holds and the query is long enough. -/
theorem search_oneBlock (content : Str) (title : Option Str) (q : Str) (h2 : 2 ≤ q.length)
    (hhit : blockHit (lower q) (theBlock content title) = true) :
    search_cheatsheets [oneBlockSheet content title] q =
      [blockMatchResult (oneBlockSheet content title) (theSec content title) (lower q)
        (theBlock content title)] := by
  have hne : lower q ≠ [] := by
    intro he
    have := lower_length q
    rw [he] at this
    simp at this
    omega
  rw [search_eq_flatMap _ _ h2]
  show docResults (lower q) (oneBlockSheet content title) ++ [] = _
  unfold docResults secResults oneBlockSheet theSec
  simp only [List.flatMap_cons, List.flatMap_nil, List.append_nil]
  rw [show (lower ([] : Str)) = [] from rfl, containsSub_nil _ hne]
  simp [hhit]

/-- C3: when the query occurs (case-insensitively) in a block's content at
first index `i`, the returned block match text is
`content[max(0,i-50) : min(len(content), i+len(query)+50)]`, with a
leading "..." exactly when `i - 50 > 0` and a trailing "..." exactly when
`i + len(query) + 50 < len(content)`. -/
theorem C3_block_snippet_bounds (content q : Str) (h2 : 2 ≤ q.length)
    (hocc : containsSub (lower content) (lower q) = true) :
    ∃ i : Nat, findFrom (lower q) (lower content) 0 = some i ∧
      search_cheatsheets [oneBlockSheet content none] q =
        [{ cheatsheet_id := [], cheatsheet_name := [], section_title := some [],
           block_type := some .text, block_title := none, type := sKindBlock,
           matchText :=
             (if (i : Int) - 50 > 0 then sDots else []) ++
               pySlice content (max 0 ((i : Int) - 50))
                 (min ((content.length : Int)) ((i : Int) + (q.length : Int) + 50)) ++
               (if (i : Int) + (q.length : Int) + 50 < (content.length : Int) then sDots
                else []) }] := by
  obtain ⟨i, hi⟩ := containsSub_some _ _ hocc
  refine ⟨i, hi, ?_⟩
  have hhit : blockHit (lower q) (theBlock content none) = true := by
    unfold blockHit theBlock
    simp [hocc]
  rw [search_oneBlock content none q h2 hhit]
  unfold blockMatchResult theBlock oneBlockSheet theSec
  have hpf : pyFind (lower content) (lower q) = (i : Int) := by
    unfold pyFind
    rw [hi]
  dsimp only
  rw [hpf, lower_length]
  have c1 : (max 0 ((i : Int) - 50) > 0) = ((i : Int) - 50 > 0) := propext (by omega)
  have c2 : (min ((content.length : Int)) ((i : Int) + (q.length : Int) + 50) <
      (content.length : Int)) =
      ((i : Int) + (q.length : Int) + 50 < (content.length : Int)) := propext (by omega)
  simp only [c1, c2]
  by_cases hc2 : (i : Int) + (q.length : Int) + 50 < (content.length : Int) <;>
    by_cases hc1 : (i : Int) - 50 > 0 <;>
      simp [hc1, hc2, List.append_assoc]

/-- Witness for C3 at a concrete block content and query. -/
theorem C3_block_snippet_bounds_witness :
    (2 ≤ (("cache").toList : Str).length ∧
      containsSub (lower (("the Cache is big").toList)) (lower (("cache").toList)) = true) ∧
    (∃ i : Nat,
      findFrom (lower (("cache").toList)) (lower (("the Cache is big").toList)) 0 = some i ∧
      search_cheatsheets [oneBlockSheet (("the Cache is big").toList) none] (("cache").toList) =
        [{ cheatsheet_id := [], cheatsheet_name := [], section_title := some [],
           block_type := some .text, block_title := none, type := sKindBlock,
           matchText :=
             (if (i : Int) - 50 > 0 then sDots else []) ++
               pySlice (("the Cache is big").toList) (max 0 ((i : Int) - 50))
                 (min (((("the Cache is big").toList : Str).length : Int))
                   ((i : Int) + ((("cache").toList : Str).length : Int) + 50)) ++
               (if (i : Int) + ((("cache").toList : Str).length : Int) + 50 <
                   (((("the Cache is big").toList : Str).length : Int)) then sDots
                else []) }]) :=
  ⟨⟨by decide, by decide⟩,
    C3_block_snippet_bounds (("the Cache is big").toList) (("cache").toList)
      (by decide) (by decide)⟩

/-- C10: when the query occurs in a block's title but not in its content,
the block still matches and its match text is the first
`min(len(content), len(query)+49)` characters of the content, with no
leading "..." and a trailing "..." exactly when the content is longer than
`len(query) + 49`; the snippet need not contain the query. -/
theorem C10_title_only_match_snippet (content t q : Str) (h2 : 2 ≤ q.length)
    (hmiss : containsSub (lower content) (lower q) = false)
    (htit : t ≠ []) (hhit : containsSub (lower t) (lower q) = true) :
    search_cheatsheets [oneBlockSheet content (some t)] q =
      [{ cheatsheet_id := [], cheatsheet_name := [], section_title := some [],
         block_type := some .text, block_title := some t, type := sKindBlock,
         matchText := content.take (min content.length (q.length + 49)) ++
           (if q.length + 49 < content.length then sDots else []) }] := by
  have hblock : blockHit (lower q) (theBlock content (some t)) = true := by
    unfold blockHit theBlock
    simp [hmiss, htit, hhit]
  rw [search_oneBlock content (some t) q h2 hblock]
  unfold blockMatchResult theBlock oneBlockSheet theSec
  have hpf : pyFind (lower content) (lower q) = -1 := by
    unfold pyFind
    rw [containsSub_none _ _ hmiss]
  dsimp only
  rw [hpf, lower_length]
  have c1 : (max 0 ((-1 : Int) - 50) > 0) = False :=
    eq_false (by decide : ¬ (max 0 ((-1 : Int) - 50) > 0))
  have c2 : (min ((content.length : Int)) ((-1 : Int) + (q.length : Int) + 50) <
      (content.length : Int)) = (q.length + 49 < content.length) := propext (by omega)
  have c3 : pySlice content (max 0 ((-1 : Int) - 50))
      (min ((content.length : Int)) ((-1 : Int) + (q.length : Int) + 50)) =
      content.take (min content.length (q.length + 49)) := by
    unfold pySlice
    have e1 : (max 0 ((-1 : Int) - 50)).toNat = 0 := by decide
    have e2 : (min ((content.length : Int)) ((-1 : Int) + (q.length : Int) + 50) -
        max 0 ((-1 : Int) - 50)).toNat = min content.length (q.length + 49) := by
      rw [show ((-1 : Int) + (q.length : Int) + 50) = ((q.length + 49 : Nat) : Int) from by
            push_cast; ring,
          show max 0 ((-1 : Int) - 50) = 0 from by decide, sub_zero, ← Nat.cast_min,
          Int.toNat_natCast]
    rw [e1, e2, List.drop_zero]
  simp only [c1, c2, c3, if_false]
  split <;> simp

/-- Witness for C10 at a concrete block content, title and query. -/
theorem C10_title_only_match_snippet_witness :
    (2 ≤ (("cache").toList : Str).length ∧
      containsSub (lower (("zzzz").toList)) (lower (("cache").toList)) = false ∧
      ((("My Cache").toList : Str) ≠ []) ∧
      containsSub (lower (("My Cache").toList)) (lower (("cache").toList)) = true) ∧
    search_cheatsheets [oneBlockSheet (("zzzz").toList) (some (("My Cache").toList))]
        (("cache").toList) =
      [{ cheatsheet_id := [], cheatsheet_name := [], section_title := some [],
         block_type := some .text, block_title := some (("My Cache").toList),
         type := sKindBlock,
         matchText := (("zzzz").toList : Str).take
             (min (("zzzz").toList : Str).length ((("cache").toList : Str).length + 49)) ++
           (if (("cache").toList : Str).length + 49 < (("zzzz").toList : Str).length then sDots
            else []) }] :=
  ⟨⟨by decide, by decide, by decide, by decide⟩,
    C10_title_only_match_snippet (("zzzz").toList) (("My Cache").toList) (("cache").toList)
      (by decide) (by decide) (by decide) (by decide)⟩

/-! ### Preservation of the block-counter invariant (C4) -/

theorem InvParts.ofAppend {csId : Str} {xs ys : List Block} {c : Nat}
    (h : InvParts csId (xs ++ ys) c) : InvParts csId xs c := by
  obtain ⟨h1, h2, h3⟩ := h
  refine ⟨fun b hb => h1 b (List.mem_append_left ys hb), ?_,
    fun b hb => h3 b (List.mem_append_left ys hb)⟩
  rw [List.map_append] at h2
  exact h2.prefix (List.prefix_append _ _)

theorem InvParts.mono {csId : Str} {bs : List Block} {c c' : Nat} (hle : c ≤ c')
    (h : InvParts csId bs c) : InvParts csId bs c' := by
  obtain ⟨h1, h2, h3⟩ := h
  refine ⟨h1, h2, fun b hb => lt_of_lt_of_le (h3 b hb) (by exact_mod_cast hle)⟩

theorem InvParts.snoc {csId : Str} {bs : List Block} {c : Nat} {b : Block}
    (h : InvParts csId bs c) (hb : blockFieldsOK csId b) (hy : b.y = (c : Int)) :
    InvParts csId (bs ++ [b]) (c + 1) := by
  obtain ⟨h1, h2, h3⟩ := h
  refine ⟨?_, ?_, ?_⟩
  · intro x hx
    rcases List.mem_append.mp hx with hx1 | hx2
    · exact h1 x hx1
    · rw [List.mem_singleton.mp hx2]
      exact hb
  · rw [List.map_append]
    rw [List.chain'_append]
    refine ⟨h2, List.chain'_singleton _, ?_⟩
    intro x hx y hy2
    simp only [List.map_cons, List.map_nil, List.head?_cons, Option.mem_def,
      Option.some.injEq] at hy2
    subst hy2
    have hxmem : x ∈ bs.map Block.y := List.mem_of_mem_getLast? hx
    obtain ⟨bx, hbx, rfl⟩ := List.mem_map.mp hxmem
    rw [hy]
    exact h3 bx hbx
  · intro x hx
    rcases List.mem_append.mp hx with hx1 | hx2
    · exact lt_of_lt_of_le (h3 x hx1) (by exact_mod_cast Nat.le_succ c)
    · rw [List.mem_singleton.mp hx2, hy]
      exact_mod_cast Nat.lt_succ_self c

theorem newText_fieldsOK (csId : Str) (c : Nat) (title : Option Str) (content : Str) :
    blockFieldsOK csId (PBlock.toBlock
      { id := blockIdOf csId (c + 1), title := title, content := content,
        y := ((c + 1 : Nat) : Int) - 1 }) := by
  unfold blockFieldsOK PBlock.toBlock
  dsimp only
  refine ⟨rfl, rfl, fun _ => rfl, fun hc => by simp at hc, by push_cast; omega, ?_⟩
  congr 1
  omega

theorem newCode_fieldsOK (csId : Str) (c : Nat) (content lang : Str) :
    blockFieldsOK csId
      ({ id := blockIdOf csId (c + 1), type := .code, content := content,
         language := some lang, x := 0, y := (((c + 1 : Nat)) : Int) - 1, w := 6,
         h := 3 } : Block) := by
  unfold blockFieldsOK
  dsimp only
  refine ⟨rfl, rfl, fun hc => by simp at hc, fun _ => rfl, by push_cast; omega, ?_⟩
  congr 1
  omega

theorem invC4_h2 (csId : Str) (now : Nat) (line : Str) (st : PState) (h : InvC4 csId st) :
    InvC4 csId (h2Step now line st) := by
  obtain ⟨secs, cs, cb, c⟩ := st
  unfold InvC4 at *
  cases cs <;> cases cb <;>
    simpa [h2Step, allBlocks, List.flatMap_append, List.append_assoc] using h

theorem invC4_h3 (csId : Str) (line : Str) (st : PState) (h : InvC4 csId st) :
    InvC4 csId (h3Step csId line st) := by
  obtain ⟨secs, cs, cb, c⟩ := st
  unfold InvC4 at *
  cases cs with
  | none =>
    cases cb with
    | none =>
      have step := @InvParts.snoc csId _ _ _ (by simpa [allBlocks] using h)
        (newText_fieldsOK csId c (some (trim (line.drop 4))) [])
        (by unfold PBlock.toBlock; dsimp only; push_cast; omega)
      simpa [h3Step, allBlocks, List.flatMap_append, List.append_assoc] using step
    | some pb =>
      have hpre : InvParts csId ((secs ++ []).flatMap Section.blocks) c := by
        have := @InvParts.ofAppend csId ((secs ++ []).flatMap Section.blocks)
          [pb.toBlock] c (by simpa [allBlocks] using h)
        exact this
      have step := InvParts.snoc hpre
        (newText_fieldsOK csId c (some (trim (line.drop 4))) [])
        (by unfold PBlock.toBlock; dsimp only; push_cast; omega)
      simpa [h3Step, allBlocks, List.flatMap_append, List.append_assoc] using step
  | some s =>
    cases cb with
    | none =>
      have step := @InvParts.snoc csId _ _ _ (by simpa [allBlocks] using h)
        (newText_fieldsOK csId c (some (trim (line.drop 4))) [])
        (by unfold PBlock.toBlock; dsimp only; push_cast; omega)
      simpa [h3Step, allBlocks, List.flatMap_append, List.append_assoc] using step
    | some pb =>
      have step := @InvParts.snoc csId _ _ _ (by simpa [allBlocks] using h)
        (newText_fieldsOK csId c (some (trim (line.drop 4))) [])
        (by unfold PBlock.toBlock; dsimp only; push_cast; omega)
      simpa [h3Step, allBlocks, List.flatMap_append, List.append_assoc] using step

theorem invC4_fence (csId : Str) (line : Str) (codeLines : List Str) (st : PState)
    (h : InvC4 csId st) : InvC4 csId (fenceStep csId line codeLines st) := by
  obtain ⟨secs, cs, cb, c⟩ := st
  unfold InvC4 at *
  cases cs with
  | none =>
    cases cb with
    | none =>
      have step := InvParts.mono (Nat.le_succ c) (by simpa [allBlocks] using h)
      simpa [fenceStep, allBlocks, List.flatMap_append, List.append_assoc] using step
    | some pb =>
      have hpre : InvParts csId ((secs ++ []).flatMap Section.blocks) c :=
        @InvParts.ofAppend csId ((secs ++ []).flatMap Section.blocks)
          [pb.toBlock] c (by simpa [allBlocks] using h)
      have step := InvParts.mono (Nat.le_succ c) hpre
      simpa [fenceStep, allBlocks, List.flatMap_append, List.append_assoc] using step
  | some s =>
    cases cb with
    | none =>
      have step := @InvParts.snoc csId _ _ _ (by simpa [allBlocks] using h)
        (newCode_fieldsOK csId c (joinLines codeLines) (fenceLang line))
        (by dsimp only; push_cast; omega)
      simpa [fenceStep, allBlocks, List.flatMap_append, List.append_assoc] using step
    | some pb =>
      have step := @InvParts.snoc csId _ _ _ (by simpa [allBlocks] using h)
        (newCode_fieldsOK csId c (joinLines codeLines) (fenceLang line))
        (by dsimp only; push_cast; omega)
      simpa [fenceStep, allBlocks, List.flatMap_append, List.append_assoc] using step

theorem invC4_text (csId : Str) (now : Nat) (line : Str) (st : PState) (h : InvC4 csId st) :
    InvC4 csId (textStep now csId line st) := by
  obtain ⟨secs, cs, cb, c⟩ := st
  unfold InvC4 at *
  cases cs with
  | none =>
    cases cb with
    | none =>
      have step := @InvParts.snoc csId _ _ _ (by simpa [allBlocks] using h)
        (newText_fieldsOK csId c none line)
        (by unfold PBlock.toBlock; dsimp only; push_cast; omega)
      simpa [textStep, allBlocks, List.flatMap_append, List.append_assoc] using step
    | some pb =>
      obtain ⟨h1, h2, h3⟩ := h
      refine ⟨?_, ?_, ?_⟩ <;>
        simp only [textStep, allBlocks, List.flatMap_append, Option.toList,
          List.map_cons, List.map_nil, List.map_append] at h1 h2 h3 ⊢
      · intro b hb
        rcases List.mem_append.mp hb with hb1 | hb2
        · exact h1 b (List.mem_append_left _ hb1)
        · have : b = PBlock.toBlock pb → blockFieldsOK csId b := by
            intro hbe
            have := h1 (PBlock.toBlock pb) (List.mem_append_right _ (by simp))
            rwa [hbe]
          simp only [List.mem_singleton] at hb2
          subst hb2
          have hfields := h1 (PBlock.toBlock pb) (List.mem_append_right _ (by simp))
          unfold blockFieldsOK PBlock.toBlock at hfields ⊢
          simpa using hfields
      · have : (List.map Block.y (List.map PBlock.toBlock [{ pb with
            content := pb.content ++ '\n' :: line }])) =
            List.map Block.y (List.map PBlock.toBlock [pb]) := by
          simp [PBlock.toBlock]
        simpa [this] using h2
      · intro b hb
        rcases List.mem_append.mp hb with hb1 | hb2
        · exact h3 b (List.mem_append_left _ hb1)
        · simp only [List.mem_singleton] at hb2
          subst hb2
          have := h3 (PBlock.toBlock pb) (List.mem_append_right _ (by simp))
          simpa [PBlock.toBlock] using this
  | some s =>
    cases cb with
    | none =>
      have step := @InvParts.snoc csId _ _ _ (by simpa [allBlocks] using h)
        (newText_fieldsOK csId c none line)
        (by unfold PBlock.toBlock; dsimp only; push_cast; omega)
      simpa [textStep, allBlocks, List.flatMap_append, List.append_assoc] using step
    | some pb =>
      obtain ⟨h1, h2, h3⟩ := h
      refine ⟨?_, ?_, ?_⟩ <;>
        simp only [textStep, allBlocks, List.flatMap_append, Option.toList,
          List.map_cons, List.map_nil, List.map_append] at h1 h2 h3 ⊢
      · intro b hb
        rcases List.mem_append.mp hb with hb1 | hb2
        · exact h1 b (List.mem_append_left _ hb1)
        · simp only [List.mem_singleton] at hb2
          subst hb2
          have hfields := h1 (PBlock.toBlock pb) (List.mem_append_right _ (by simp))
          unfold blockFieldsOK PBlock.toBlock at hfields ⊢
          simpa using hfields
      · have : (List.map Block.y (List.map PBlock.toBlock [{ pb with
            content := pb.content ++ '\n' :: line }])) =
            List.map Block.y (List.map PBlock.toBlock [pb]) := by
          simp [PBlock.toBlock]
        simpa [this] using h2
      · intro b hb
        rcases List.mem_append.mp hb with hb1 | hb2
        · exact h3 b (List.mem_append_left _ hb1)
        · simp only [List.mem_singleton] at hb2
          subst hb2
          have := h3 (PBlock.toBlock pb) (List.mem_append_right _ (by simp))
          simpa [PBlock.toBlock] using this

/-! ### Replaying the exported lines through the importer -/

theorem joinLines_glue (a l : Str) (ls : List Str) :
    joinLines ((a ++ '\n' :: l) :: ls) = a ++ '\n' :: joinLines (l :: ls) := by
  cases ls with
  | nil => rfl
  | cons l2 t =>
    show (a ++ '\n' :: l) ++ '\n' :: joinLines (l2 :: t) =
      a ++ '\n' :: (l ++ '\n' :: joinLines (l2 :: t))
    simp [List.append_assoc]

theorem appContent_eq (pb : PBlock) :
    ∀ ls, appContent pb ls = { pb with content := joinLines (pb.content :: ls) } := by
  intro ls
  induction ls generalizing pb with
  | nil => rfl
  | cons l t ih =>
    show appContent (appendLine pb l) t = _
    rw [ih (appendLine pb l)]
    show ({ pb with content := joinLines ((pb.content ++ '\n' :: l) :: t) } : PBlock) = _
    rw [joinLines_glue]
    rfl

theorem parseLines_blank_nil (now : Nat) (csId : Str) (rest : List Str) (st : PState) :
    parseLines now csId ([] :: rest) st = parseLines now csId rest st :=
  parseLines_cons_blank now csId [] rest st rfl rfl rfl rfl

theorem replay_content (now : Nat) (csId : Str) :
    ∀ (ls : List Str) (rest : List Str) (secs : List Section) (sec : Section) (pb : PBlock)
      (c : Nat), (∀ l ∈ ls, goodContentLine l) →
      parseLines now csId (ls ++ rest) ⟨secs, some sec, some pb, c⟩ =
        parseLines now csId rest ⟨secs, some sec, some (appContent pb ls), c⟩ := by
  intro ls
  induction ls with
  | nil =>
    intro rest secs sec pb c _
    rfl
  | cons l t ih =>
    intro rest secs sec pb c hgood
    have hl := hgood l (List.mem_cons_self l t)
    rw [List.cons_append,
      parseLines_cons_text now csId l (t ++ rest) _ hl.2.1 hl.2.2.1 hl.2.2.2 hl.1,
      textStep_SS, ih rest secs sec (appendLine pb l) c
        (fun x hx => hgood x (List.mem_cons_of_mem l hx))]
    rfl

theorem takeWhile_all {α : Type} (p : α → Bool) :
    ∀ (l : List α), (∀ x ∈ l, p x = true) → l.takeWhile p = l
  | [], _ => rfl
  | x :: t, h => by
    rw [List.takeWhile_cons, h x (List.mem_cons_self x t)]
    simp only [if_true]
    rw [takeWhile_all p t (fun y hy => h y (List.mem_cons_of_mem x hy))]

theorem fenceLang_export (b : Block) (L : Str) (hL : b.language = some L) (hne : L ≠ [])
    (hword : ∀ ch ∈ L, isWordChar ch = true) :
    fenceLang (sFence ++ exportLang b) = exportLang b := by
  have hexp : exportLang b = L := by
    unfold exportLang
    rw [hL]
    exact if_neg hne
  rw [hexp]
  unfold fenceLang fenceTag
  rw [show (sFence ++ L).drop 3 = L from by rw [sFence_chars]; rfl, takeWhile_all isWordChar L hword,
    if_neg hne]

theorem blockLines_text (b : Block) (hti : b.title = none) (hty : b.type = .text) :
    blockLines b = [[]] ++ splitLines b.content ++ [[]] := by
  unfold blockLines
  rw [hti, hty]
  simp

theorem blockLines_titled (b : Block) (T : Str) (hti : b.title = some T) (hTne : T ≠ [])
    (hty : b.type = .text) :
    blockLines b = [[], sH3 ++ T, []] ++ ([[]] ++ splitLines b.content ++ [[]]) := by
  unfold blockLines
  rw [hti, hty]
  simp [hTne]

theorem blockLines_code (b : Block) (hti : b.title = none) (hty : b.type = .code) :
    blockLines b = [[], sFence ++ exportLang b] ++ splitLines b.content ++ [sFence, []] := by
  unfold blockLines
  rw [hti, hty]
  simp

theorem replay_block (now : Nat) (csId : Str) (b : Block) (hb : GoodBlock b)
    (rest : List Str) (secs : List Section) (s : Section) (p : Option PBlock) (c : Nat)
    (hcompat : b.type = .text → b.title = none → p = none) :
    parseLines now csId (blockLines b ++ rest) ⟨secs, some s, p, c⟩ =
      parseLines now csId rest
        ⟨secs,
          some { s with blocks := s.blocks ++ p.toList.map PBlock.toBlock ++
              (if b.type = .code then [rbCode csId (c + 1) b] else []) },
          if b.type = .code then none else some (rbText csId (c + 1) b.title b.content),
          c + 1⟩ := by
  rcases hb with ⟨hty, hti, _, hcl⟩ | ⟨hty, ⟨T, hti, hTne, hTgood⟩, _, ⟨rs, hrs, hgoodrs⟩⟩ |
    ⟨hty, hti, ⟨L, hL, hLne, hword⟩, hcf⟩
  · -- untitled text block
    have hp : p = none := hcompat hty hti
    subst hp
    obtain ⟨l0, ls, hsc⟩ := splitLines_decomp b.content
    have hl0 : goodContentLine l0 := hcl l0 (by rw [hsc]; exact List.mem_cons_self _ _)
    have hls : ∀ l ∈ ls, goodContentLine l :=
      fun l hl => hcl l (by rw [hsc]; exact List.mem_cons_of_mem _ hl)
    rw [blockLines_text b hti hty, hsc]
    simp only [List.append_assoc, List.cons_append, List.nil_append]
    rw [parseLines_blank_nil,
      parseLines_cons_text now csId l0 _ _ hl0.2.1 hl0.2.2.1 hl0.2.2.2 hl0.1,
      textStep_SN,
      replay_content now csId ls ([] :: rest) secs s (newUntitled csId (c + 1) l0) (c + 1) hls,
      parseLines_blank_nil]
    have hpend : appContent (newUntitled csId (c + 1) l0) ls =
        rbText csId (c + 1) b.title b.content := by
      rw [appContent_eq]
      unfold newUntitled rbText
      rw [hti]
      rw [show joinLines (l0 :: ls) = b.content from by rw [← hsc, joinLines_splitLines]]
    rw [hpend]
    exact congrArg (parseLines now csId rest) (by simp [hty])
  · -- titled text block
    rw [blockLines_titled b T hti hTne hty, hrs]
    simp only [List.append_assoc, List.cons_append, List.nil_append]
    rw [parseLines_blank_nil,
      parseLines_cons_h3 now csId (sH3 ++ T) _ _ (startsW_h3_not_h2 T) (startsW_append_self _ _)]
    have hTtrim : trim ((sH3 ++ T).drop 4) = T := by
      rw [show (sH3 ++ T).drop 4 = T from by rw [sH3_chars]; rfl, hTgood.1]
    have hcontent : joinLines ([] :: rs) = b.content := by
      rw [← hrs, joinLines_splitLines]
    have hpend : appContent (newTitled csId (c + 1) (sH3 ++ T)) rs =
        rbText csId (c + 1) b.title b.content := by
      rw [appContent_eq, hti]
      unfold newTitled rbText
      dsimp only
      rw [hTtrim, hcontent]
    cases p with
    | none =>
      rw [h3Step_B]
      rw [parseLines_blank_nil, parseLines_blank_nil, parseLines_blank_nil,
        replay_content now csId rs ([] :: rest) secs s _ (c + 1) hgoodrs,
        parseLines_blank_nil]
      rw [hpend]
      exact congrArg (parseLines now csId rest) (by simp [hty])
    | some pb =>
      rw [h3Step_SS]
      rw [parseLines_blank_nil, parseLines_blank_nil, parseLines_blank_nil,
        replay_content now csId rs ([] :: rest) secs _ _ (c + 1) hgoodrs,
        parseLines_blank_nil]
      rw [hpend]
      exact congrArg (parseLines now csId rest) (by simp [hty, addBlock])
  · -- code block
    rw [blockLines_code b hti hty]
    simp only [List.append_assoc, List.cons_append, List.nil_append]
    rw [parseLines_blank_nil,
      parseLines_cons_fence now csId (sFence ++ exportLang b) _ _
        (startsW_fence_not_h2 _) (startsW_fence_not_h3 _) (startsW_append_self _ _)]
    have htw := takeWhile_all_append (fun l => !startsW l sFence) (splitLines b.content)
      sFence ([] :: rest)
      (by
        intro x hx
        show (!startsW x sFence) = true
        rw [hcf x hx]
        rfl)
      (by
        show (!startsW sFence sFence) = false
        rw [startsW_refl]
        rfl)
    rw [htw.1, htw.2]
    rw [show (sFence :: ([] :: rest)).drop 1 = [] :: rest from rfl]
    have hcode : codeBlockOf csId (c + 1) (sFence ++ exportLang b) (splitLines b.content) =
        rbCode csId (c + 1) b := by
      unfold codeBlockOf rbCode
      rw [joinLines_splitLines, fenceLang_export b L hL hLne hword]
    cases p with
    | none =>
      rw [fenceStep_SN, parseLines_blank_nil, hcode]
      exact congrArg (parseLines now csId rest) (by simp [hty, addBlock])
    | some pb =>
      rw [fenceStep_SS, parseLines_blank_nil, hcode]
      exact congrArg (parseLines now csId rest) (by simp [hty, addBlock])

theorem replay_blocks (now : Nat) (csId : Str) :
    ∀ (bs : List Block) (rest : List Str) (secs : List Section) (s : Section)
      (p : Option PBlock) (c : Nat),
      (∀ b ∈ bs, GoodBlock b) → blocksChainOK bs →
      (∀ b0, bs.head? = some b0 → b0.type = .text → b0.title = none → p = none) →
      parseLines now csId (bs.flatMap blockLines ++ rest) ⟨secs, some s, p, c⟩ =
        parseLines now csId rest
          ⟨secs, some { s with blocks := s.blocks ++ (replayBlocks csId bs p c).1 },
            (replayBlocks csId bs p c).2.1, (replayBlocks csId bs p c).2.2⟩ := by
  intro bs
  induction bs with
  | nil =>
    intro rest secs s p c _ _ _
    show parseLines now csId ([] ++ rest) _ = _
    rw [List.nil_append]
    exact congrArg (parseLines now csId rest) (by simp [replayBlocks])
  | cons b bs ih =>
    intro rest secs s p c hgood hchain hcompat
    have hb := hgood b (List.mem_cons_self b bs)
    have hgood2 : ∀ x ∈ bs, GoodBlock x := fun x hx => hgood x (List.mem_cons_of_mem b hx)
    have hchain2 : blocksChainOK bs := (List.chain'_cons'.mp hchain).2
    rw [List.flatMap_cons, List.append_assoc,
      replay_block now csId b hb _ secs s p c (fun hty hti => hcompat b rfl hty hti)]
    by_cases hbc : b.type = .code
    · rw [if_pos hbc, if_pos hbc,
        ih _ secs _ none (c + 1) hgood2 hchain2 (fun _ _ _ _ => rfl)]
      refine congrArg (parseLines now csId rest) ?_
      have hrb : replayBlocks csId (b :: bs) p c =
          ((p.toList.map PBlock.toBlock) ++ [rbCode csId (c + 1) b] ++
            (replayBlocks csId bs none (c + 1)).1,
           (replayBlocks csId bs none (c + 1)).2.1,
           (replayBlocks csId bs none (c + 1)).2.2) := by
        show (if b.type = .code then _ else _) = _
        rw [if_pos hbc]
      rw [hrb]
      simp [List.append_assoc]
    · rw [if_neg hbc, if_neg hbc,
        ih _ secs _ (some (rbText csId (c + 1) b.title b.content)) (c + 1) hgood2 hchain2
          (fun b0 hb0 hty0 hti0 => by
            have hrel := (List.chain'_cons'.mp hchain).1 b0 (by rw [hb0]; rfl)
            exact absurd (hrel ⟨hty0, hti0⟩) hbc)]
      refine congrArg (parseLines now csId rest) ?_
      have hrb : replayBlocks csId (b :: bs) p c =
          ((p.toList.map PBlock.toBlock) ++
            (replayBlocks csId bs (some (rbText csId (c + 1) b.title b.content)) (c + 1)).1,
           (replayBlocks csId bs (some (rbText csId (c + 1) b.title b.content)) (c + 1)).2.1,
           (replayBlocks csId bs (some (rbText csId (c + 1) b.title b.content)) (c + 1)).2.2) := by
        show (if b.type = .code then _ else _) = _
        rw [if_neg hbc]
      rw [hrb]
      simp [List.append_assoc]

theorem h2Step_counter (now : Nat) (line : Str) (st : PState) :
    (h2Step now line st).counter = st.counter := by
  obtain ⟨secs, cs, cb, c⟩ := st
  cases cs <;> cases cb <;> rfl

theorem replay_sec (now : Nat) (csId : Str) (s : Section) (hs : GoodSec s) (rest : List Str)
    (st : PState) (hpend : st.currentBlock = none ∨ st.currentSection ≠ none) :
    parseLines now csId (secLines s ++ rest) st =
      parseLines now csId rest (afterSec now csId s st) := by
  obtain ⟨secs, cs, cb, c⟩ := st
  show parseLines now csId (([[], sH2 ++ s.title, []] ++ s.blocks.flatMap blockLines) ++ rest)
      _ = _
  simp only [List.append_assoc, List.cons_append, List.nil_append]
  rw [parseLines_blank_nil,
    parseLines_cons_h2 now csId _ _ _ (startsW_append_self sH2 s.title),
    parseLines_blank_nil]
  cases cs with
  | some s0 =>
    cases cb with
    | some pb =>
      rw [h2Step_SS,
        replay_blocks now csId s.blocks rest _ _ none c hs.2.1 hs.2.2 (fun _ _ _ _ => rfl)]
      refine congrArg (parseLines now csId rest) ?_
      unfold afterSec
      rw [h2Step_SS]
      rfl
    | none =>
      rw [h2Step_SN,
        replay_blocks now csId s.blocks rest _ _ none c hs.2.1 hs.2.2 (fun _ _ _ _ => rfl)]
      refine congrArg (parseLines now csId rest) ?_
      unfold afterSec
      rw [h2Step_SN]
      rfl
  | none =>
    cases cb with
    | some pb =>
      rcases hpend with h | h
      · simp at h
      · exact absurd rfl h
    | none =>
      rw [h2Step_N,
        replay_blocks now csId s.blocks rest _ _ none c hs.2.1 hs.2.2 (fun _ _ _ _ => rfl)]
      refine congrArg (parseLines now csId rest) ?_
      unfold afterSec
      rw [h2Step_N]
      rfl

theorem afterSec_cs_ne_none (now : Nat) (csId : Str) (s : Section) (st : PState) :
    (afterSec now csId s st).currentSection ≠ none := by
  obtain ⟨secs, cs, cb, c⟩ := st
  unfold afterSec
  cases cs with
  | some s0 =>
    cases cb with
    | some pb => rw [h2Step_SS]; simp
    | none => rw [h2Step_SN]; simp
  | none =>
    cases cb with
    | some pb => rw [h2Step_N]; simp
    | none => rw [h2Step_N]; simp

theorem replay_secs (now : Nat) (csId : Str) :
    ∀ (ss : List Section) (st : PState), (∀ s ∈ ss, GoodSec s) →
      (st.currentBlock = none ∨ st.currentSection ≠ none) →
      parseLines now csId (ss.flatMap secLines) st = replayDoc now csId ss st
  | [], st, _, _ => rfl
  | s :: ss, st, hgood, hpend => by
      rw [List.flatMap_cons,
        replay_sec now csId s (hgood s (List.mem_cons_self s ss)) _ st hpend,
        replay_secs now csId ss (afterSec now csId s st)
          (fun x hx => hgood x (List.mem_cons_of_mem s hx))
          (Or.inr (afterSec_cs_ne_none now csId s st))]
      rfl

theorem drop3_h2 (t : Str) : (sH2 ++ t).drop 3 = t := by
  rw [sH2_chars]
  rfl

theorem rbCode_struct (csId : Str) (c : Nat) (b : Block) (hb : GoodBlock b)
    (hbc : b.type = .code) : (rbCode csId c b).struct = b.struct := by
  rcases hb with ⟨hty, _⟩ | ⟨hty, _⟩ | ⟨_, hti, ⟨L, hL, hne, _⟩, _⟩
  · rw [hty] at hbc
    exact absurd hbc (by decide)
  · rw [hty] at hbc
    exact absurd hbc (by decide)
  · have hexp : exportLang b = L := by
      unfold exportLang
      rw [hL]
      exact if_neg hne
    show ((none : Option Str), BlockType.code, b.content, some (exportLang b)) =
      (b.title, b.type, b.content, b.language)
    rw [hti, hbc, hexp, hL]

theorem rbText_struct (csId : Str) (c : Nat) (b : Block) (hb : GoodBlock b)
    (hbc : ¬ b.type = .code) :
    (PBlock.toBlock (rbText csId c b.title b.content)).struct = b.struct := by
  have h3 : b.type = .text ∧ b.language = none := by
    rcases hb with ⟨hty, _, hlang, _⟩ | ⟨hty, _, hlang, _⟩ | ⟨hty, _⟩
    · exact ⟨hty, hlang⟩
    · exact ⟨hty, hlang⟩
    · exact absurd hty hbc
  show (b.title, BlockType.text, b.content, (none : Option Str)) =
    (b.title, b.type, b.content, b.language)
  rw [h3.1, h3.2]

theorem replay_struct_blocks (csId : Str) :
    ∀ (bs : List Block) (p : Option PBlock) (c : Nat), (∀ b ∈ bs, GoodBlock b) →
      ((replayBlocks csId bs p c).1 ++
          (replayBlocks csId bs p c).2.1.toList.map PBlock.toBlock).map Block.struct =
        (p.toList.map PBlock.toBlock ++ bs).map Block.struct := by
  intro bs
  induction bs with
  | nil =>
    intro p c _
    simp [replayBlocks]
  | cons b bs ih =>
    intro p c hgood
    have hb := hgood b (List.mem_cons_self b bs)
    have hgood2 : ∀ x ∈ bs, GoodBlock x := fun x hx => hgood x (List.mem_cons_of_mem b hx)
    by_cases hbc : b.type = .code
    · have hrb : replayBlocks csId (b :: bs) p c =
          ((p.toList.map PBlock.toBlock) ++ [rbCode csId (c + 1) b] ++
            (replayBlocks csId bs none (c + 1)).1,
           (replayBlocks csId bs none (c + 1)).2.1,
           (replayBlocks csId bs none (c + 1)).2.2) := by
        show (if b.type = .code then _ else _) = _
        rw [if_pos hbc]
      have hih := ih none (c + 1) hgood2
      simp only [Option.toList_none, List.map_nil, List.nil_append, List.map_append] at hih
      rw [hrb]
      simp only [List.map_append, List.append_assoc, List.map_cons]
      rw [hih, rbCode_struct csId (c + 1) b hb hbc]
      simp
    · have hrb : replayBlocks csId (b :: bs) p c =
          ((p.toList.map PBlock.toBlock) ++
            (replayBlocks csId bs (some (rbText csId (c + 1) b.title b.content)) (c + 1)).1,
           (replayBlocks csId bs (some (rbText csId (c + 1) b.title b.content)) (c + 1)).2.1,
           (replayBlocks csId bs (some (rbText csId (c + 1) b.title b.content)) (c + 1)).2.2) := by
        show (if b.type = .code then _ else _) = _
        rw [if_neg hbc]
      have hih := ih (some (rbText csId (c + 1) b.title b.content)) (c + 1) hgood2
      simp only [Option.toList_some, List.map_cons, List.map_nil, List.singleton_append,
        List.map_append] at hih
      rw [hrb]
      simp only [List.map_append, List.append_assoc]
      rw [hih]
      simp only [List.map_cons]
      rw [rbText_struct csId (c + 1) b hb hbc]

theorem flushSecs_SN (secs : List Section) (s : Section) (c : Nat) :
    flushSecs ⟨secs, some s, none, c⟩ = secs ++ [s] := rfl

theorem flushSecs_SS (secs : List Section) (s : Section) (pb : PBlock) (c : Nat) :
    flushSecs ⟨secs, some s, some pb, c⟩ = secs ++ [addBlock s pb.toBlock] := rfl

theorem afterSec_eq (now : Nat) (csId : Str) (s : Section) (st : PState) :
    afterSec now csId s st =
      ⟨flushSecs st,
       some { newSec now (flushSecs st).length (sH2 ++ s.title) with
         blocks := (replayBlocks csId s.blocks none st.counter).1 },
       (replayBlocks csId s.blocks none st.counter).2.1,
       (replayBlocks csId s.blocks none st.counter).2.2⟩ := by
  obtain ⟨secs, cs, cb, c⟩ := st
  cases cs <;> cases cb <;> rfl

theorem afterSec_flush_struct (now : Nat) (csId : Str) (s : Section) (st : PState)
    (hs : GoodSec s) :
    (flushSecs (afterSec now csId s st)).map Section.struct =
      (flushSecs st).map Section.struct ++ [s.struct] := by
  rw [afterSec_eq]
  have hout := replay_struct_blocks csId s.blocks none st.counter hs.2.1
  simp only [Option.toList_none, List.map_nil, List.nil_append] at hout
  have htitle : trim ((sH2 ++ s.title).drop 3) = s.title := by
    rw [drop3_h2]
    exact hs.1.1
  cases hop : (replayBlocks csId s.blocks none st.counter).2.1 with
  | none =>
    rw [hop] at hout
    simp only [Option.toList_none, List.map_nil, List.append_nil] at hout
    rw [flushSecs_SN, List.map_append, List.map_cons, List.map_nil]
    have hsec : Section.struct { newSec now (flushSecs st).length (sH2 ++ s.title) with
        blocks := (replayBlocks csId s.blocks none st.counter).1 } = s.struct := by
      show (trim ((sH2 ++ s.title).drop 3),
          ((replayBlocks csId s.blocks none st.counter).1).map Block.struct) =
        (s.title, s.blocks.map Block.struct)
      rw [htitle, hout]
    rw [hsec]
  | some pb =>
    rw [hop] at hout
    simp only [Option.toList_some, List.map_cons, List.map_nil] at hout
    rw [flushSecs_SS, List.map_append, List.map_cons, List.map_nil]
    have hsec : Section.struct (addBlock { newSec now (flushSecs st).length (sH2 ++ s.title) with
        blocks := (replayBlocks csId s.blocks none st.counter).1 } pb.toBlock) = s.struct := by
      show (trim ((sH2 ++ s.title).drop 3),
          ((replayBlocks csId s.blocks none st.counter).1 ++ [pb.toBlock]).map Block.struct) =
        (s.title, s.blocks.map Block.struct)
      rw [htitle, hout]
    rw [hsec]

theorem replayDoc_flush_struct (now : Nat) (csId : Str) :
    ∀ (ss : List Section) (st : PState), (∀ s ∈ ss, GoodSec s) →
      (flushSecs (replayDoc now csId ss st)).map Section.struct =
        (flushSecs st).map Section.struct ++ ss.map Section.struct
  | [], st, _ => by simp [replayDoc]
  | s :: ss, st, hgood => by
      show (flushSecs (replayDoc now csId ss (afterSec now csId s st))).map Section.struct = _
      rw [replayDoc_flush_struct now csId ss (afterSec now csId s st)
          (fun x hx => hgood x (List.mem_cons_of_mem s hx)),
        afterSec_flush_struct now csId s st (hgood s (List.mem_cons_self s ss)),
        List.map_cons, List.append_assoc]
      rfl

theorem parse_name (md name : Str) (now : Nat) :
    (parse_markdown_to_cheatsheet md name now).name = name := by
  unfold parse_markdown_to_cheatsheet
  rw [finishParse_eq]

theorem reparse_struct (d : Cheatsheet) (now2 : Nat) (hd : GoodDoc d) :
    (parse_markdown_to_cheatsheet (stripHeader d.name (export_cheatsheet_markdown d))
        d.name now2).struct = d.struct := by
  unfold parse_markdown_to_cheatsheet
  rw [strip_export_lines d hd, parseLines_blank_nil,
    replay_secs now2 (csIdOf now2) d.sections initPState hd.2 (Or.inl rfl),
    finishParse_eq]
  have hmap := replayDoc_flush_struct now2 (csIdOf now2) d.sections initPState hd.2
  have hinit : flushSecs initPState = [] := rfl
  rw [hinit] at hmap
  simp only [List.map_nil, List.nil_append] at hmap
  have hne : flushSecs (replayDoc now2 (csIdOf now2) d.sections initPState) ≠ [] := by
    intro h0
    rw [h0] at hmap
    cases hsec : d.sections with
    | nil => exact hd.1 hsec
    | cons a as =>
      rw [hsec] at hmap
      simp at hmap
  show (if flushSecs (replayDoc now2 (csIdOf now2) d.sections initPState) = []
      then [importedSec now2]
      else flushSecs (replayDoc now2 (csIdOf now2) d.sections initPState)).map
      Section.struct = d.struct
  rw [if_neg hne]
  exact hmap

theorem invC4_parseGo (now : Nat) (csId : Str) :
    ∀ (n : Nat) (ls : List Str) (st : PState), InvC4 csId st →
      InvC4 csId (parseGo now csId n ls st) := by
  intro n
  induction n with
  | zero =>
    intro ls st h
    cases ls <;> exact h
  | succ n ih =>
    intro ls st h
    cases ls with
    | nil => exact h
    | cons line rest =>
      simp only [parseGo]
      split
      · exact ih _ _ (invC4_h2 csId now line st h)
      · split
        · exact ih _ _ (invC4_h3 csId line st h)
        · split
          · exact ih _ _ (invC4_fence csId line _ st h)
          · split
            · exact ih _ _ (invC4_text csId now line st h)
            · exact ih _ _ h

theorem invC4_final (csId : Str) (now : Nat) (name : Str) (st : PState) (h : InvC4 csId st) :
    (∀ b ∈ (finishParse now name csId st).sections.flatMap Section.blocks,
        blockFieldsOK csId b) ∧
      List.Chain' (· < ·)
        (((finishParse now name csId st).sections.flatMap Section.blocks).map Block.y) := by
  obtain ⟨secs, cs, cb, c⟩ := st
  unfold InvC4 at h
  cases cs with
  | some s =>
    cases cb with
    | some pb =>
      have hp : InvParts csId
          ((finishParse now name csId ⟨secs, some s, some pb, c⟩).sections.flatMap
            Section.blocks) c := by
        have heq : (finishParse now name csId ⟨secs, some s, some pb, c⟩).sections.flatMap
            Section.blocks = allBlocks ⟨secs, some s, some pb, c⟩ := by
          simp [finishParse, allBlocks, List.flatMap_append, List.append_assoc]
        rw [heq]
        exact h
      exact ⟨hp.1, hp.2.1⟩
    | none =>
      have hp : InvParts csId
          ((finishParse now name csId ⟨secs, some s, none, c⟩).sections.flatMap
            Section.blocks) c := by
        have heq : (finishParse now name csId ⟨secs, some s, none, c⟩).sections.flatMap
            Section.blocks = allBlocks ⟨secs, some s, none, c⟩ := by
          simp [finishParse, allBlocks, List.flatMap_append, List.append_assoc]
        rw [heq]
        exact h
      exact ⟨hp.1, hp.2.1⟩
  | none =>
    cases cb with
    | some pb =>
      show (∀ b ∈ (finishParse now name csId ⟨secs, none, some pb, c⟩).sections.flatMap
          Section.blocks, blockFieldsOK csId b) ∧ _
      unfold finishParse
      dsimp only
      split
      · constructor
        · intro b hb
          simp at hb
        · simp [List.chain'_nil]
      · have hp : InvParts csId (secs.flatMap Section.blocks) c := by
          have := @InvParts.ofAppend csId ((secs ++ []).flatMap Section.blocks)
            [pb.toBlock] c (by simpa [allBlocks] using h)
          simpa using this
        exact ⟨hp.1, hp.2.1⟩
    | none =>
      show (∀ b ∈ (finishParse now name csId ⟨secs, none, none, c⟩).sections.flatMap
          Section.blocks, blockFieldsOK csId b) ∧ _
      unfold finishParse
      dsimp only
      split
      · constructor
        · intro b hb
          simp at hb
        · simp [List.chain'_nil]
      · have hp : InvParts csId (secs.flatMap Section.blocks) c := by
          simpa [allBlocks] using h
        exact ⟨hp.1, hp.2.1⟩

/-- C4: every imported block has x = 0, w = 6, h = 2 for text and h = 3 for
code, a nonnegative y slot equal to its (1-based) counter value minus one,
and an id derived from that counter; across the whole document the y slots
strictly increase in order, reflecting the single shared counter. -/
theorem C4_layout_and_counter (md name : Str) (now : Nat) :
    (∀ b ∈ (parse_markdown_to_cheatsheet md name now).sections.flatMap Section.blocks,
        b.x = 0 ∧ b.w = 6 ∧ (b.type = .text → b.h = 2) ∧ (b.type = .code → b.h = 3) ∧
        0 ≤ b.y ∧ b.id = blockIdOf (csIdOf now) (b.y + 1).toNat) ∧
      List.Chain' (· < ·)
        (((parse_markdown_to_cheatsheet md name now).sections.flatMap Section.blocks).map
          Block.y) := by
  have hinit : InvC4 (csIdOf now) initPState := by
    refine ⟨?_, ?_, ?_⟩ <;> simp [allBlocks, initPState, InvParts]
  have hrun := invC4_parseGo now (csIdOf now) (splitLines md).length (splitLines md)
    initPState hinit
  have hfin := invC4_final (csIdOf now) now name _ hrun
  exact ⟨fun b hb => hfin.1 b hb, hfin.2⟩

/-- C2 (amended): for markdown made only of #/##/### headers, plain
paragraphs and fenced code blocks, provided every "### " header line
carries a non-blank title, re-importing the export of the imported
document reproduces the same section/block structure — section titles in
order, and block titles, types, contents and code languages in order —
modulo the leading "# name" line (stripped) and blank-line
normalization. -/
theorem C2_round_trip_text_code (md name : Str) (now now2 : Nat)
    (hfrag : Fragment md)
    (hpro : ∀ l ∈ splitLines md, startsW l sH3 = true → trim (l.drop 4) ≠ []) :
    (parse_markdown_to_cheatsheet
        (stripHeader name (export_cheatsheet_markdown
          (parse_markdown_to_cheatsheet md name now))) name now2).struct =
      (parse_markdown_to_cheatsheet md name now).struct := by
  have hgd : GoodDoc (parse_markdown_to_cheatsheet md name now) := import_good md name now hpro
  have h := reparse_struct (parse_markdown_to_cheatsheet md name now) now2 hgd
  rwa [parse_name md name now] at h

theorem C2_round_trip_text_code_witness :
    (Fragment rtMd ∧
      (∀ l ∈ splitLines rtMd, startsW l sH3 = true → trim (l.drop 4) ≠ [])) ∧
    (parse_markdown_to_cheatsheet
        (stripHeader rtName (export_cheatsheet_markdown
          (parse_markdown_to_cheatsheet rtMd rtName 0))) rtName 1).struct =
      (parse_markdown_to_cheatsheet rtMd rtName 0).struct := by
  have hfrag : Fragment rtMd := by
    show FragLines (splitLines rtMd)
    have hsplit : splitLines rtMd =
        [("## S").toList, ("hello").toList, sFence ++ ("py").toList, ("code").toList, sFence] := by
      decide
    rw [hsplit]
    refine FragLines.header _ _ (Or.inr (Or.inl (by decide))) ?_
    refine FragLines.para _ _ (by decide) ?_
    exact FragLines.fenced (sFence ++ ("py").toList) [("code").toList] []
      (startsW_append_self sFence (("py").toList)) (by decide) FragLines.nil
  exact ⟨⟨hfrag, by decide⟩, C2_round_trip_text_code rtMd rtName 0 1 hfrag (by decide)⟩

end CS
